import Mathlib

/-!
Verification development for the gat searchable-symmetric-encryption engine.

The Python source is shallowly embedded: byte strings become `List Nat`
(one entry per byte), Python dicts become insertion-ordered association
lists, library crypto primitives (HMAC-SHA256, the AES block keystream and
the GCM tag) are universally quantified function parameters, and fallible
operations return `Option`.  Randomness (nonces, dummy-id draws, the
response shuffle) is passed in explicitly as data.
-/

set_option maxHeartbeats 1000000

abbrev Bytes : Type := List Nat

abbrev DocId : Type := String

/-- Character codes of a string literal, used for keyword and label bytes. -/
def strBytes (s : String) : Bytes :=
  s.data.map (fun c => c.toNat)

/- ------------------------------------------------------------------ -/
/- dict.fromkeys: first-occurrence deduplication, preserving order.    -/
/- Models the `list(dict.fromkeys(xs))` idiom used throughout client
   and backends.                                                       -/
/- ------------------------------------------------------------------ -/

/-- Scan with a seen-set accumulator; keeps the first occurrence of each
element, exactly like iterating `dict.fromkeys`. -/
def dedupAux {α : Type} [DecidableEq α] (seen : List α) : List α → List α
  | [] => []
  | x :: xs => if x ∈ seen then dedupAux seen xs else x :: dedupAux (x :: seen) xs

/-- Model of `list(dict.fromkeys(xs))`: unique elements, first-seen order. -/
def dictFromKeys {α : Type} [DecidableEq α] (l : List α) : List α :=
  dedupAux [] l

/-- The seen-set reached after scanning a list, as in `dedupAux`. -/
def seenAfter {α : Type} [DecidableEq α] (seen : List α) : List α → List α
  | [] => seen
  | x :: xs => if x ∈ seen then seenAfter seen xs else seenAfter (x :: seen) xs

/- ------------------------------------------------------------------ -/
/- Hex encoding: `bytes.hex()` and `bytes.fromhex`.  Each byte becomes
   two hex digits; we keep digits as numbers 0..15.                    -/
/- ------------------------------------------------------------------ -/

/-- `bytes.hex()`: every byte becomes its two hex digits, high first. -/
def hexEncode : Bytes → List Nat
  | [] => []
  | b :: bs => b / 16 :: b % 16 :: hexEncode bs

/-- `bytes.fromhex`: pairs of digits back to bytes; `none` models the
`ValueError` on odd length or an out-of-range digit. -/
def hexDecode : List Nat → Option Bytes
  | [] => some []
  | [_] => none
  | d₁ :: d₂ :: rest =>
    if d₁ < 16 ∧ d₂ < 16 then
      (hexDecode rest).map (fun bs => (d₁ * 16 + d₂) :: bs)
    else none

/- ------------------------------------------------------------------ -/
/- Text handling: `str.lower`, `str.strip`, and the keyword regex
   `\b[a-z0-9]+\b` of `_extract_keywords` (client.py).                 -/
/- ------------------------------------------------------------------ -/

/-- ASCII lowercase of one character code (`str.lower`, ASCII fragment). -/
def lowerByte (c : Nat) : Nat :=
  if 65 ≤ c ∧ c ≤ 90 then c + 32 else c

/-- `str.lower` over the character codes. -/
def lowerBytes (l : Bytes) : Bytes :=
  l.map lowerByte

/-- ASCII whitespace stripped by `str.strip`. -/
def isSpace (c : Nat) : Bool :=
  c = 32 || c = 9 || c = 10 || c = 13 || c = 11 || c = 12

/-- `str.strip()`: drop whitespace from both ends. -/
def pyStrip (l : Bytes) : Bytes :=
  ((l.dropWhile isSpace).reverse.dropWhile isSpace).reverse

/-- `kw.strip().lower()`: the keyword normalization applied by
`build_trapdoor`, `build_forward_secure_index_key` and the client before
searching. -/
def normalizeKw (l : Bytes) : Bytes :=
  lowerBytes (pyStrip l)

/-- Lowercase-alphanumeric character class `[a-z0-9]` of the keyword regex
(applied after `str.lower`). -/
def isAlnum (c : Nat) : Bool :=
  (97 ≤ c && c ≤ 122) || (48 ≤ c && c ≤ 57)

/-- Python word character `\w`, ASCII fragment: alphanumeric or underscore.
The source regex operates on lowercased text, so uppercase cannot occur. -/
def isWord (c : Nat) : Bool :=
  isAlnum c || c = 95

/-- Maximal runs of word characters, separators discarded (accumulator is
kept reversed). -/
def wordRunsAux : List Nat → List Nat → List Bytes
  | acc, [] => if acc = [] then [] else [acc.reverse]
  | acc, c :: cs =>
    if isWord c then wordRunsAux (c :: acc) cs
    else if acc = [] then wordRunsAux [] cs
    else acc.reverse :: wordRunsAux [] cs

/-- Maximal `\w+` runs of a text. -/
def wordRuns (l : Bytes) : List Bytes :=
  wordRunsAux [] l

/-- `_extract_keywords` (client.py): lowercase, find `\b[a-z0-9]+\b`, then
dedupe preserving first-seen order.  On ASCII text a regex match is exactly
a maximal `\w`-run all of whose characters are in `[a-z0-9]`: a run that
touches an underscore has no word boundary and is skipped whole. -/
def extract_keywords (text : Bytes) : List Bytes :=
  dictFromKeys ((wordRuns (lowerBytes text)).filter (fun r => r.all isAlnum))

/- Idempotence of the `strip().lower()` normalization. -/

/- ------------------------------------------------------------------ -/
/- HKDF and the vault key bundle (crypto/keys.py).  The HMAC-SHA256
   primitive is a universally quantified parameter
   `H : Bytes → Bytes → Bytes` (key, message ↦ digest).                -/
/- ------------------------------------------------------------------ -/

def LABEL_K_FILE_ENC : Bytes := strBytes ("file-encryption")

def LABEL_K_SEARCH : Bytes := strBytes ("search-token")

def LABEL_K_INDEX_MAC : Bytes := strBytes ("index-integrity")

/-- HKDF-Extract: PRK = HMAC(salt, ikm). -/
def hkdf_extract (H : Bytes → Bytes → Bytes) (salt ikm : Bytes) : Bytes :=
  H salt ikm

/-- The expand loop of `_hkdf_expand`: remaining rounds, round index,
previous block, output so far. -/
def hkdf_expand_aux (H : Bytes → Bytes → Bytes) (prk info : Bytes) :
    Nat → Nat → Bytes → Bytes → Bytes
  | 0, _, _, out => out
  | k + 1, i, t, out =>
    let t2 := H prk (t ++ info ++ [i])
    hkdf_expand_aux H prk info k (i + 1) t2 (out ++ t2)

/-- `_hkdf_expand`: `none` models the `ValueError` when more than 255
blocks would be needed. -/
def hkdf_expand (H : Bytes → Bytes → Bytes) (prk info : Bytes) (length : Nat) :
    Option Bytes :=
  let n := (length + 31) / 32
  if n > 255 then none
  else some ((hkdf_expand_aux H prk info n 1 [] []).take length)

/-- `hkdf_derive`: HKDF with empty salt. -/
def hkdf_derive (H : Bytes → Bytes → Bytes) (masterKey info : Bytes)
    (length : Nat) : Option Bytes :=
  hkdf_expand H (hkdf_extract H [] masterKey) info length

/-- The derived key set (KeyBundle in keys.py). -/
structure KeyBundle where
  k_enc : Bytes
  k_search : Bytes
  k_index_mac : Bytes
deriving DecidableEq

/-- `derive_key_bundle`: `none` models the `ValueError` on a short master
key. -/
def derive_key_bundle (H : Bytes → Bytes → Bytes) (masterKey : Bytes) :
    Option KeyBundle :=
  if masterKey.length < 32 then none
  else
    match hkdf_derive H masterKey LABEL_K_FILE_ENC 32,
        hkdf_derive H masterKey LABEL_K_SEARCH 32,
        hkdf_derive H masterKey LABEL_K_INDEX_MAC 32 with
    | some a, some b, some c => some ⟨a, b, c⟩
    | _, _, _ => none

/- ------------------------------------------------------------------ -/
/- AES-GCM, modelled at its CTR-plus-tag structure: the per-position
   keystream `ksF : key → nonce → index → Nat` and the tag function
   `tagF : key → nonce → ciphertext → Bytes` are parameters standing
   for the AES library internals.                                      -/
/- ------------------------------------------------------------------ -/

/-- CTR-mode byte stream: position-wise xor with the keystream. -/
def ctrXor (ksF : Bytes → Bytes → Nat → Nat) (k n : Bytes) : Nat → Bytes → Bytes
  | _, [] => []
  | i, b :: bs => (b ^^^ ksF k n i) :: ctrXor ksF k n (i + 1) bs

/-- `cipher.encrypt_and_digest`: ciphertext and tag. -/
def gcmEncrypt (ksF : Bytes → Bytes → Nat → Nat)
    (tagF : Bytes → Bytes → Bytes → Bytes) (k nonce pt : Bytes) : Bytes × Bytes :=
  let ct := ctrXor ksF k nonce 0 pt
  (ct, tagF k nonce ct)

/-- `cipher.decrypt_and_verify`: recompute the tag over the ciphertext and
fail (`none`) on mismatch. -/
def gcmDecrypt (ksF : Bytes → Bytes → Nat → Nat)
    (tagF : Bytes → Bytes → Bytes → Bytes) (k nonce ct tag : Bytes) : Option Bytes :=
  if tagF k nonce ct = tag then some (ctrXor ksF k nonce 0 ct) else none

/- sse.py: encrypt_document / decrypt_document (16-byte IV, payload is
   iv ‖ tag ‖ ciphertext). -/

/-- Payload layout built by `encrypt_document`: `iv + tag + ciphertext`. -/
def docPayload (ksF : Bytes → Bytes → Nat → Nat)
    (tagF : Bytes → Bytes → Bytes → Bytes) (kEnc iv pt : Bytes) : Bytes :=
  let e := gcmEncrypt ksF tagF kEnc iv pt
  iv ++ e.2 ++ e.1

/-- `encrypt_document(plaintext, master_key)` with the random 16-byte IV
passed in explicitly; returns the stored payload. -/
def encrypt_document (H : Bytes → Bytes → Bytes) (ksF : Bytes → Bytes → Nat → Nat)
    (tagF : Bytes → Bytes → Bytes → Bytes) (pt mk iv : Bytes) : Option Bytes :=
  (derive_key_bundle H mk).map fun kb => docPayload ksF tagF kb.k_enc iv pt

/-- `decrypt_document(payload, master_key)`: slice iv = payload[:16],
tag = payload[16:32], ct = payload[32:], then AEAD-decrypt. -/
def decrypt_document (H : Bytes → Bytes → Bytes) (ksF : Bytes → Bytes → Nat → Nat)
    (tagF : Bytes → Bytes → Bytes → Bytes) (payload mk : Bytes) : Option Bytes :=
  (derive_key_bundle H mk).bind fun kb =>
    gcmDecrypt ksF tagF kb.k_enc (payload.take 16) (payload.drop 32)
      ((payload.drop 16).take 16)

/- file_encryption.py: encrypt_file_payload / decrypt_file_payload
   (12-byte nonce, blob is nonce ‖ ciphertext ‖ tag). -/

/-- `encrypt_file_content` without metadata: `ciphertext + tag`; `none`
models the `ValueError` on a key that is not 32 bytes. -/
def encrypt_file_content (ksF : Bytes → Bytes → Nat → Nat)
    (tagF : Bytes → Bytes → Bytes → Bytes) (pt kFileEnc nonce : Bytes) :
    Option Bytes :=
  if kFileEnc.length ≠ 32 then none
  else
    let e := gcmEncrypt ksF tagF kFileEnc nonce pt
    some (e.1 ++ e.2)

/-- `decrypt_file_content` without metadata: length checks, split off the
16-byte tag, verify, decrypt. -/
def decrypt_file_content (ksF : Bytes → Bytes → Nat → Nat)
    (tagF : Bytes → Bytes → Bytes → Bytes) (nonce payload kFileEnc : Bytes) :
    Option Bytes :=
  if kFileEnc.length ≠ 32 then none
  else if nonce.length ≠ 12 then none
  else if payload.length < 16 then none
  else
    gcmDecrypt ksF tagF kFileEnc nonce (payload.take (payload.length - 16))
      (payload.drop (payload.length - 16))

/-- `encrypt_file_payload`: single blob `nonce + ciphertext + tag`. -/
def encrypt_file_payload (ksF : Bytes → Bytes → Nat → Nat)
    (tagF : Bytes → Bytes → Bytes → Bytes) (pt kFileEnc nonce : Bytes) :
    Option Bytes :=
  (encrypt_file_content ksF tagF pt kFileEnc nonce).map fun p => nonce ++ p

/-- `decrypt_file_payload`: blob = nonce(12) ‖ ciphertext ‖ tag(16). -/
def decrypt_file_payload (ksF : Bytes → Bytes → Nat → Nat)
    (tagF : Bytes → Bytes → Bytes → Bytes) (blob kFileEnc : Bytes) :
    Option Bytes :=
  if blob.length < 12 + 16 then none
  else decrypt_file_content ksF tagF (blob.take 12) (blob.drop 12) kFileEnc

/- ------------------------------------------------------------------ -/
/- Forward-private tokens (crypto/forward_secure.py).                  -/
/- ------------------------------------------------------------------ -/

def LABEL_FWD : Bytes := strBytes ("sse.v1.forward")

/-- `int.to_bytes(8, "big")` for counters below 2^64 (larger counters
raise OverflowError in the source and do not occur). -/
def be64 (c : Nat) : Bytes :=
  (List.range 8).map fun i => c / 256 ^ (7 - i) % 256

/-- `_fwd_key`, given the derived search key of the bundle. -/
def fwdKeyOf (H : Bytes → Bytes → Bytes) (kSearch : Bytes) : Bytes :=
  H kSearch LABEL_FWD

/-- Body of `build_forward_secure_index_key`, given the derived search
key: HMAC(K_fwd, normalized kw ‖ be64(counter)). -/
def ikRaw (H : Bytes → Bytes → Bytes) (kSearch kw : Bytes) (c : Nat) : Bytes :=
  H (fwdKeyOf H kSearch) (normalizeKw kw ++ be64 c)

/-- `build_forward_secure_index_key(keyword, counter, master_key)`. -/
def build_forward_secure_index_key (H : Bytes → Bytes → Bytes) (mk kw : Bytes)
    (c : Nat) : Option Bytes :=
  (derive_key_bundle H mk).map fun kb => ikRaw H kb.k_search kw c

/-- `build_forward_secure_search_tokens`: one token per counter value in
[0, counter_max). -/
def build_forward_secure_search_tokens (H : Bytes → Bytes → Bytes) (mk kw : Bytes)
    (counterMax : Nat) : Option (List Bytes) :=
  (derive_key_bundle H mk).map fun kb =>
    (List.range counterMax).map fun c => ikRaw H kb.k_search kw c

/-- Modelled from the spec wording (section 4.4), for comparison with the
code path: `IK(kw, i) = HMAC(K_fwd, kw ‖ big-endian-uint64(i))` where
`K_fwd = HMAC(K_search, "sse.v1.forward")`. -/
def specIK (H : Bytes → Bytes → Bytes) (kSearch kw : Bytes) (i : Nat) : Bytes :=
  H (H kSearch LABEL_FWD) (kw ++ be64 i)

/- sse.py trapdoors. -/

/-- `build_trapdoor(keyword, master_key)` = HMAC(K_search, normalized kw). -/
def build_trapdoor (H : Bytes → Bytes → Bytes) (mk kw : Bytes) : Option Bytes :=
  (derive_key_bundle H mk).map fun kb => H kb.k_search (normalizeKw kw)

/-- `encrypt_keyword_for_index` is the same function as `build_trapdoor`. -/
def encrypt_keyword_for_index (H : Bytes → Bytes → Bytes) (mk kw : Bytes) :
    Option Bytes :=
  build_trapdoor H mk kw

/- ------------------------------------------------------------------ -/
/- Index backends (server/index_backend.py).  The JSON backend is an
   insertion-ordered dict `trapdoor_hex → [doc_id]`; the SQLite backend
   is a row list with the UNIQUE(key_hex, doc_id) constraint.          -/
/- ------------------------------------------------------------------ -/

abbrev IndexMap : Type := List (Bytes × List DocId)

/-- `JsonIndexBackend.add`: `setdefault(key,[]).extend(ds)` followed by
first-occurrence dedup of the merged list; a fresh key is appended at the
end (dict insertion order). -/
def json_add : IndexMap → Bytes → List DocId → IndexMap
  | [], k, ds => [(k, dictFromKeys ds)]
  | (k₀, v) :: rest, k, ds =>
    if k₀ = k then (k₀, dictFromKeys (v ++ ds)) :: rest
    else (k₀, v) :: json_add rest k ds

/-- `JsonIndexBackend.add_batch` (and `SSEServer.upload_index`): merge each
entry of the uploaded dict in iteration order. -/
def json_add_batch (ix : IndexMap) (batch : IndexMap) : IndexMap :=
  batch.foldl (fun acc e => json_add acc e.1 e.2) ix

/-- `JsonIndexBackend.remove_doc_id`: filter the doc id out of every list
and drop keys whose list becomes empty. -/
def json_remove_doc_id (ix : IndexMap) (d : DocId) : IndexMap :=
  (ix.map fun e => (e.1, e.2.filter fun x => decide (x ≠ d))).filter
    fun e => decide (e.2 ≠ [])

/-- `INSERT OR IGNORE INTO index_entries`: append the row unless the
UNIQUE(key_hex, doc_id) constraint already holds. -/
def sqlite_insert_ignore (rows : List (Bytes × DocId)) (k : Bytes) (d : DocId) :
    List (Bytes × DocId) :=
  if (k, d) ∈ rows then rows else rows ++ [(k, d)]

/-- `SqliteIndexBackend.add`: the `seen` set dedups the incoming doc ids,
then each one is inserted with INSERT OR IGNORE. -/
def sqlite_add (rows : List (Bytes × DocId)) (k : Bytes) (ds : List DocId) :
    List (Bytes × DocId) :=
  (dictFromKeys ds).foldl (fun r d => sqlite_insert_ignore r k d) rows

/-- All doc ids the index maps a key to (used to state membership facts
about `iter_entries`). -/
def lookupIdx (ix : IndexMap) (k : Bytes) : List DocId :=
  ((ix.filter fun e => decide (e.1 = k)).map Prod.snd).flatten

/- ------------------------------------------------------------------ -/
/- Storage server (server/server.py).                                  -/
/- ------------------------------------------------------------------ -/

/-- `dict.get`-style lookup in the in-memory document map. -/
def assocLookup : List (DocId × Bytes) → DocId → Option Bytes
  | [], _ => none
  | (k, v) :: rest, d => if k = d then some v else assocLookup rest d

/-- `dict.__setitem__`: replace in place or append at the end. -/
def assocSet : List (DocId × Bytes) → DocId → Bytes → List (DocId × Bytes)
  | [], d, ct => [(d, ct)]
  | (k, v) :: rest, d, ct =>
    if k = d then (k, ct) :: rest else (k, v) :: assocSet rest d ct

/-- Server state: `_documents` (insertion-ordered dict doc_id ↦ blob) and
the JSON index backend state. -/
structure ServerState where
  documents : List (DocId × Bytes)
  index : IndexMap
deriving DecidableEq

namespace SSEServer

/-- `upload_index`: forwards to the backend `add_batch`. -/
def upload_index (sv : ServerState) (index : IndexMap) : ServerState :=
  { sv with index := json_add_batch sv.index index }

/-- `upload_document`: store one encrypted blob under its doc id. -/
def upload_document (sv : ServerState) (docId : DocId) (ct : Bytes) : ServerState :=
  { sv with documents := assocSet sv.documents docId ct }

/-- `list_document_ids`. -/
def list_document_ids (sv : ServerState) : List DocId :=
  sv.documents.map Prod.fst

/-- Token-matching step of `search_multi`: some query token has the same
length as the stored key and is byte-equal to it. -/
def matches_any (tokens : List Bytes) (stored : Bytes) : Bool :=
  tokens.any fun t => t.length == stored.length && t == stored

/-- The scan over `iter_entries`: decode each stored hex key (skipping
undecodable ones), collect the doc ids of matched entries in order. -/
def raw_results (tokens : List Bytes) : IndexMap → List DocId
  | [] => []
  | e :: rest =>
    match hexDecode e.1 with
    | none => raw_results tokens rest
    | some stored =>
      if matches_any tokens stored then e.2 ++ raw_results tokens rest
      else raw_results tokens rest

/-- The padding loop of `search_multi`: draw dummy ids, skipping any that
collide with a stored id or an id already in the response; `none` when the
supplied draw list is exhausted before `pad_to` is reached. -/
def pad_with (docIds : List DocId) : List DocId → Nat → List DocId → Option (List DocId)
  | res, 0, _ => some res
  | _, _ + 1, [] => none
  | res, n + 1, dr :: drs =>
    if dr ∉ docIds ∧ dr ∉ res then pad_with docIds (res ++ [dr]) n drs
    else pad_with docIds res (n + 1) drs

/-- `search_multi(tokens, pad_to)`, with the random dummy draws and the
`random.shuffle` permutation passed in explicitly. -/
def search_multi (sv : ServerState) (tokens : List Bytes) (padTo : Nat)
    (draws : List DocId) (shuffle : List DocId → List DocId) : Option (List DocId) :=
  let res := dictFromKeys (raw_results tokens sv.index)
  if 0 < padTo ∧ res.length < padTo then
    (pad_with (list_document_ids sv) res (padTo - res.length) draws).map shuffle
  else some res

/-- `search(token, pad_to) = search_multi([token], pad_to)`. -/
def search (sv : ServerState) (token : Bytes) (padTo : Nat) (draws : List DocId)
    (shuffle : List DocId → List DocId) : Option (List DocId) :=
  search_multi sv [token] padTo draws shuffle

/-- `get_document`. -/
def get_document (sv : ServerState) (docId : DocId) : Option Bytes :=
  assocLookup sv.documents docId

/-- `delete_document`: returns whether the doc existed; when it does not,
the method returns early and nothing (index included) is touched. -/
def delete_document (sv : ServerState) (docId : DocId) : Bool × ServerState :=
  if docId ∈ sv.documents.map Prod.fst then
    (true,
      { documents := sv.documents.filter fun e => decide (e.1 ≠ docId),
        index := json_remove_doc_id sv.index docId })
  else (false, sv)

end SSEServer

/- ------------------------------------------------------------------ -/
/- Client engine (client/client.py).                                   -/
/- ------------------------------------------------------------------ -/

/-- Client state: the in-memory `_known_doc_ids` cache (a set, modelled as
an insertion-ordered duplicate-free list used only through membership). -/
structure ClientState where
  known_doc_ids : List DocId
deriving DecidableEq

/-- Per-keyword counter `keyword → int`, with `.get(w, 0)` as the default
(an absent key reads as 0). -/
def updateCtr (ctr : Bytes → Nat) (w : Bytes) (n : Nat) : Bytes → Nat :=
  fun x => if x = w then n else ctr x

namespace SSEClient

/-- `self._known_doc_ids.add(doc_id)`. -/
def add_known (known : List DocId) (d : DocId) : List DocId :=
  if d ∈ known then known else known ++ [d]

/-- `index.setdefault(key_hex, []).append(doc_id)`. -/
def setdefault_append : IndexMap → Bytes → DocId → IndexMap
  | [], k, d => [(k, [d])]
  | (k₀, v) :: rest, k, d =>
    if k₀ = k then (k₀, v ++ [d]) :: rest
    else (k₀, v) :: setdefault_append rest k d

/-- The per-key dedup pass `index[k] = list(dict.fromkeys(index[k]))`. -/
def dedup_index (ix : IndexMap) : IndexMap :=
  ix.map fun e => (e.1, dictFromKeys e.2)

/-- Indexing of one keyword of one document in `upload_documents`:
key is `encrypt_keyword_for_index(w) = HMAC(K_search, normalized w)`. -/
def det_kw_step (H : Bytes → Bytes → Bytes) (kSearch : Bytes) (d : DocId)
    (ix : IndexMap) (w : Bytes) : IndexMap :=
  setdefault_append ix (hexEncode (H kSearch (normalizeKw w))) d

/-- The document loop of `upload_documents`: add to the known-ids cache,
encrypt and upload the payload, then index every extracted keyword. -/
def det_loop (H : Bytes → Bytes → Bytes) (ksF : Bytes → Bytes → Nat → Nat)
    (tagF : Bytes → Bytes → Bytes → Bytes) (kb : KeyBundle) :
    List (DocId × Bytes) → List Bytes → List DocId → IndexMap → ServerState →
      List DocId × IndexMap × ServerState
  | [], _, known, ix, sv => (known, ix, sv)
  | (d, pt) :: rest, ivs, known, ix, sv =>
    let known₁ := add_known known d
    let payload := docPayload ksF tagF kb.k_enc (ivs.headD []) pt
    let sv₁ := SSEServer.upload_document sv d payload
    let ix₁ := (extract_keywords pt).foldl (det_kw_step H kb.k_search d) ix
    det_loop H ksF tagF kb rest (ivs.drop 1) known₁ ix₁ sv₁

/-- `upload_documents(documents)`: encrypt and upload each document, build
one deduped index map, upload it, return it; per-document random IVs are
supplied as `ivs`. -/
def upload_documents (H : Bytes → Bytes → Bytes) (ksF : Bytes → Bytes → Nat → Nat)
    (tagF : Bytes → Bytes → Bytes → Bytes) (mk : Bytes)
    (docs : List (DocId × Bytes)) (ivs : List Bytes) (cs : ClientState)
    (sv : ServerState) : Option (ClientState × ServerState × IndexMap) :=
  (derive_key_bundle H mk).map fun kb =>
    let r := det_loop H ksF tagF kb docs ivs cs.known_doc_ids [] sv
    let index := dedup_index r.2.1
    (⟨r.1⟩, SSEServer.upload_index r.2.2 index, index)

/-- `search(query, pad_to)`: token = trapdoor of the normalized query;
when padding was requested and the known-ids cache is non-empty, filter
the response down to cached ids. -/
def search (H : Bytes → Bytes → Bytes) (mk : Bytes) (cs : ClientState)
    (sv : ServerState) (q : Bytes) (padTo : Nat) (draws : List DocId)
    (shuffle : List DocId → List DocId) : Option (List DocId) :=
  (build_trapdoor H mk (normalizeKw q)).bind fun t =>
    (SSEServer.search sv t padTo draws shuffle).map fun raw =>
      if 0 < padTo ∧ cs.known_doc_ids ≠ [] then
        raw.filter fun x => decide (x ∈ cs.known_doc_ids)
      else raw

/-- Indexing of one keyword in `upload_documents_forward_secure`:
read the counter, index under `IK(w, c)`, then store `c + 1`. -/
def fs_kw_step (H : Bytes → Bytes → Bytes) (kSearch : Bytes) (d : DocId)
    (st : (Bytes → Nat) × IndexMap) (w : Bytes) : (Bytes → Nat) × IndexMap :=
  (updateCtr st.1 w (st.1 w + 1),
    setdefault_append st.2 (hexEncode (ikRaw H kSearch w (st.1 w))) d)

/-- The document loop of `upload_documents_forward_secure`; unlike
`det_loop` it never touches the known-ids cache. -/
def fs_loop (H : Bytes → Bytes → Bytes) (ksF : Bytes → Bytes → Nat → Nat)
    (tagF : Bytes → Bytes → Bytes → Bytes) (kb : KeyBundle) :
    List (DocId × Bytes) → List Bytes → (Bytes → Nat) → IndexMap → ServerState →
      (Bytes → Nat) × IndexMap × ServerState
  | [], _, ctr, ix, sv => (ctr, ix, sv)
  | (d, pt) :: rest, ivs, ctr, ix, sv =>
    let payload := docPayload ksF tagF kb.k_enc (ivs.headD []) pt
    let sv₁ := SSEServer.upload_document sv d payload
    let st₁ := (extract_keywords pt).foldl (fs_kw_step H kb.k_search d) (ctr, ix)
    fs_loop H ksF tagF kb rest (ivs.drop 1) st₁.1 st₁.2 sv₁

/-- `upload_documents_forward_secure(keyword_counter, documents)`: the
counter is threaded through and returned; the client state is returned
unchanged (the source never adds forward-secure uploads to
`_known_doc_ids`). -/
def upload_documents_forward_secure (H : Bytes → Bytes → Bytes)
    (ksF : Bytes → Bytes → Nat → Nat) (tagF : Bytes → Bytes → Bytes → Bytes)
    (mk : Bytes) (ctr : Bytes → Nat) (docs : List (DocId × Bytes))
    (ivs : List Bytes) (cs : ClientState) (sv : ServerState) :
    Option ((Bytes → Nat) × ClientState × ServerState) :=
  (derive_key_bundle H mk).map fun kb =>
    let r := fs_loop H ksF tagF kb docs ivs ctr [] sv
    (r.1, cs, SSEServer.upload_index r.2.2 (dedup_index r.2.1))

/-- `search_forward_secure(keyword_counter, query, pad_to)`: an absent or
zero counter returns `[]` immediately; otherwise send tokens for all
counters in [0, max) and optionally filter padding. -/
def search_forward_secure (H : Bytes → Bytes → Bytes) (mk : Bytes)
    (ctr : Bytes → Nat) (cs : ClientState) (sv : ServerState) (q : Bytes)
    (padTo : Nat) (draws : List DocId) (shuffle : List DocId → List DocId) :
    Option (List DocId) :=
  let w := normalizeKw q
  let maxC := ctr w
  if maxC = 0 then some []
  else
    (build_forward_secure_search_tokens H mk w maxC).bind fun tokens =>
      (SSEServer.search_multi sv tokens padTo draws shuffle).map fun raw =>
        if 0 < padTo ∧ cs.known_doc_ids ≠ [] then
          raw.filter fun x => decide (x ∈ cs.known_doc_ids)
        else raw

end SSEClient

/- ------------------------------------------------------------------ -/
/- Vault manager (crypto/vault.py).                                    -/
/- ------------------------------------------------------------------ -/

inductive VaultState where
  | LOCKED
  | UNLOCKED
deriving DecidableEq

/-- The mutable state of `VaultManager`. `k_master_buf` is the zeroizable
master-key buffer (`None` once dropped), `last_activity` the monotonic
timestamp. -/
structure Vault where
  state : VaultState
  keys : Option KeyBundle
  k_master_buf : Option Bytes
  salt : Option Bytes
  last_activity : Nat
deriving DecidableEq

namespace VaultManager

/-- `is_unlocked`. -/
def is_unlocked (v : Vault) : Bool :=
  v.state == VaultState.UNLOCKED && v.keys.isSome

/-- `get_keys`: key bundle only when unlocked; touching the vault updates
`last_activity` to the current monotonic time `now`. -/
def get_keys (v : Vault) (now : Nat) : Option KeyBundle × Vault :=
  if is_unlocked v then (v.keys, { v with last_activity := now }) else (none, v)

/-- `get_k_master_for_compat`: `if not self._k_master_buf` is Python
truthiness, so both a dropped and an empty buffer return `None`. -/
def get_k_master_for_compat (v : Vault) (now : Nat) : Option Bytes × Vault :=
  match v.k_master_buf with
  | none => (none, v)
  | some b => if b = [] then (none, v) else (some b, { v with last_activity := now })

/-- `_secure_zero`: overwrite every byte of the buffer with zero. -/
def secure_zero (b : Bytes) : Bytes :=
  b.map fun _ => 0

/-- `lock_vault`: the master-key buffer is overwritten via `secure_zero`
and then dropped, the subkeys are dropped, the state becomes LOCKED.
Salt and last_activity are kept. -/
def lock_vault (v : Vault) : Vault :=
  { v with k_master_buf := none, keys := none, state := VaultState.LOCKED }

end VaultManager

/- ------------------------------------------------------------------ -/
/- Concrete instantiations of the library primitives, used to evaluate
   the model on explicit inputs (counterexamples and witnesses).       -/
/- ------------------------------------------------------------------ -/

/-- A concrete stand-in for HMAC-SHA256: a one-byte digest. -/
def hmacW : Bytes → Bytes → Bytes :=
  fun k m => [(k.sum + m.sum) % 256]

/-- A concrete stand-in for the AES-CTR keystream. -/
def ksW : Bytes → Bytes → Nat → Nat :=
  fun k n i => (k.sum + n.sum + i) % 256

/-- A concrete stand-in for the GCM tag (16 bytes, as in the source). -/
def tagW : Bytes → Bytes → Bytes → Bytes :=
  fun _ _ _ => List.replicate 16 0

/-- A concrete 32-byte master key. -/
def mkW : Bytes := List.replicate 32 0

/-- The key bundle `derive_key_bundle hmacW mkW` evaluates to. -/
def kbW : KeyBundle := ⟨[25], [197], [37]⟩

/-- A server state holding an index entry for a doc id that is not among
the stored documents (reachable by calling `upload_index` alone). -/
def svOrphan : ServerState := ⟨[], [([0, 1], [("x")])]⟩

/-- A server state with one document and one index entry, whose stored
key decodes to the one-byte token `[7]`. -/
def svOneDoc : ServerState := ⟨[(("a"), [7])], [([0, 7], [("a")])]⟩

/-- A server state with one document and an index entry for it plus an
entry shared with a second document. -/
def svTwoDocs : ServerState :=
  ⟨[(("a"), [7]), (("b"), [8])], [([0, 7], [("a"), ("b")]), ([0, 8], [("b")])]⟩

/- ------------------------------------------------------------------ -/
/- Lemmas.                                                             -/
/- ------------------------------------------------------------------ -/

theorem mem_dedupAux {α : Type} [DecidableEq α] {x : α} {seen l : List α} :
    x ∈ dedupAux seen l ↔ x ∈ l ∧ x ∉ seen := by
  induction l generalizing seen with
  | nil => simp [dedupAux]
  | cons y ys ih =>
    by_cases hy : y ∈ seen
    · simp only [dedupAux, if_pos hy, ih, List.mem_cons]
      constructor
      · rintro ⟨hm, hn⟩; exact ⟨Or.inr hm, hn⟩
      · rintro ⟨hm | hm, hn⟩
        · exact absurd (hm ▸ hy) hn
        · exact ⟨hm, hn⟩
    · simp only [dedupAux, if_neg hy, List.mem_cons, ih]
      constructor
      · rintro (rfl | ⟨hm, hn⟩)
        · exact ⟨Or.inl rfl, hy⟩
        · rw [not_or] at hn
          exact ⟨Or.inr hm, hn.2⟩
      · rintro ⟨hm | hm, hn⟩
        · exact Or.inl hm
        · by_cases hxy : x = y
          · exact Or.inl hxy
          · exact Or.inr ⟨hm, by rw [not_or]; exact ⟨hxy, hn⟩⟩

theorem mem_seenAfter {α : Type} [DecidableEq α] {x : α} {seen l : List α} :
    x ∈ seenAfter seen l ↔ x ∈ l ∨ x ∈ seen := by
  induction l generalizing seen with
  | nil => simp [seenAfter]
  | cons y ys ih =>
    by_cases hy : y ∈ seen
    · simp only [seenAfter, if_pos hy, ih, List.mem_cons]
      constructor
      · rintro (hm | hm)
        · exact Or.inl (Or.inr hm)
        · exact Or.inr hm
      · rintro ((rfl | hm) | hm)
        · exact Or.inr hy
        · exact Or.inl hm
        · exact Or.inr hm
    · simp only [seenAfter, if_neg hy, ih, List.mem_cons]
      tauto

theorem dedupAux_append {α : Type} [DecidableEq α] (seen l₁ l₂ : List α) :
    dedupAux seen (l₁ ++ l₂) = dedupAux seen l₁ ++ dedupAux (seenAfter seen l₁) l₂ := by
  induction l₁ generalizing seen with
  | nil => simp [dedupAux, seenAfter]
  | cons y ys ih =>
    by_cases hy : y ∈ seen
    · simp [dedupAux, seenAfter, if_pos hy, ih]
    · simp [dedupAux, seenAfter, if_neg hy, ih]

theorem dedupAux_eq_nil {α : Type} [DecidableEq α] {seen l : List α}
    (h : ∀ x ∈ l, x ∈ seen) : dedupAux seen l = [] := by
  induction l generalizing seen with
  | nil => rfl
  | cons y ys ih =>
    have hy : y ∈ seen := h y (List.mem_cons_self _ _)
    simp only [dedupAux, if_pos hy]
    exact ih (fun x hx => h x (List.mem_cons_of_mem _ hx))

theorem nodup_dedupAux {α : Type} [DecidableEq α] (seen l : List α) :
    (dedupAux seen l).Nodup := by
  induction l generalizing seen with
  | nil => exact List.nodup_nil
  | cons y ys ih =>
    by_cases hy : y ∈ seen
    · simpa [dedupAux, if_pos hy] using ih seen
    · simp only [dedupAux, if_neg hy]
      refine List.Nodup.cons ?_ (ih (y :: seen))
      intro hc
      exact (mem_dedupAux.mp hc).2 (List.mem_cons_self _ _)

theorem dedupAux_eq_self {α : Type} [DecidableEq α] {seen l : List α}
    (hn : l.Nodup) (hd : ∀ x ∈ l, x ∉ seen) : dedupAux seen l = l := by
  induction l generalizing seen with
  | nil => rfl
  | cons y ys ih =>
    have hy : y ∉ seen := hd y (List.mem_cons_self _ _)
    simp only [dedupAux, if_neg hy]
    congr 1
    refine ih hn.of_cons ?_
    intro x hx
    simp only [List.mem_cons]
    rintro (rfl | hs)
    · exact (List.nodup_cons.mp hn).1 hx
    · exact hd x (List.mem_cons_of_mem _ hx) hs

theorem mem_dictFromKeys {α : Type} [DecidableEq α] {x : α} {l : List α} :
    x ∈ dictFromKeys l ↔ x ∈ l := by
  simp [dictFromKeys, mem_dedupAux]

theorem nodup_dictFromKeys {α : Type} [DecidableEq α] (l : List α) :
    (dictFromKeys l).Nodup :=
  nodup_dedupAux [] l

theorem dictFromKeys_append_of_subset {α : Type} [DecidableEq α] {l₁ l₂ : List α}
    (h : ∀ x ∈ l₂, x ∈ l₁) : dictFromKeys (l₁ ++ l₂) = dictFromKeys l₁ := by
  unfold dictFromKeys
  rw [dedupAux_append]
  have : dedupAux (seenAfter ([] : List α) l₁) l₂ = [] := by
    refine dedupAux_eq_nil ?_
    intro x hx
    exact mem_seenAfter.mpr (Or.inl (h x hx))
  rw [this, List.append_nil]

theorem dictFromKeys_idem {α : Type} [DecidableEq α] (l : List α) :
    dictFromKeys (dictFromKeys l) = dictFromKeys l := by
  unfold dictFromKeys
  exact dedupAux_eq_self (nodup_dedupAux [] l) (fun x _ => List.not_mem_nil x)

theorem hexDecode_hexEncode {l : Bytes} (h : ∀ b ∈ l, b < 256) :
    hexDecode (hexEncode l) = some l := by
  induction l with
  | nil => rfl
  | cons b bs ih =>
    have hb : b < 256 := h b (List.mem_cons_self _ _)
    have h₁ : b / 16 < 16 := Nat.div_lt_of_lt_mul (by omega)
    have h₂ : b % 16 < 16 := Nat.mod_lt _ (by omega)
    simp only [hexEncode, hexDecode, if_pos (And.intro h₁ h₂),
      ih (fun x hx => h x (List.mem_cons_of_mem _ hx)), Option.map_some']
    congr 2
    omega

theorem hexEncode_injective : ∀ {l₁ l₂ : Bytes}, hexEncode l₁ = hexEncode l₂ → l₁ = l₂ := by
  intro l₁
  induction l₁ with
  | nil =>
    intro l₂ h
    cases l₂ with
    | nil => rfl
    | cons b bs => simp [hexEncode] at h
  | cons b bs ih =>
    intro l₂ h
    cases l₂ with
    | nil => simp [hexEncode] at h
    | cons c cs =>
      simp only [hexEncode, List.cons.injEq] at h
      obtain ⟨h₁, h₂, h₃⟩ := h
      have hbc : b = c := by omega
      rw [hbc, ih h₃]

theorem extract_all_alnum {w : Bytes} {text : Bytes}
    (h : w ∈ extract_keywords text) : ∀ c ∈ w, isAlnum c = true := by
  unfold extract_keywords at h
  have h' := mem_dictFromKeys.mp h
  have := List.of_mem_filter h'
  intro c hc
  exact List.all_eq_true.mp this c hc

theorem map_eq_self_of {α : Type} {f : α → α} {l : List α}
    (h : ∀ a ∈ l, f a = a) : l.map f = l := by
  induction l with
  | nil => rfl
  | cons a as ih =>
    simp [h a (List.mem_cons_self _ _),
      ih (fun x hx => h x (List.mem_cons_of_mem _ hx))]

theorem dropWhile_eq_self_of_not {p : Nat → Bool} {l : Bytes}
    (h : ∀ c ∈ l, p c = false) : l.dropWhile p = l := by
  cases l with
  | nil => rfl
  | cons c cs =>
    rw [List.dropWhile_cons_of_neg]
    simp [h c (List.mem_cons_self _ _)]

/-- Extracted keywords are fixed points of `kw.strip().lower()`. -/
theorem normalizeKw_extract {w : Bytes} {text : Bytes}
    (h : w ∈ extract_keywords text) : normalizeKw w = w := by
  have halnum := extract_all_alnum h
  have hs : ∀ c ∈ w, isSpace c = false := by
    intro c hc
    have := halnum c hc
    simp only [isAlnum, Bool.or_eq_true, Bool.and_eq_true, decide_eq_true_eq] at this
    simp only [isSpace, Bool.or_eq_false_iff, decide_eq_false_iff_not]
    omega
  have hrev : ∀ c ∈ w.reverse, isSpace c = false := by
    intro c hc; exact hs c (List.mem_reverse.mp hc)
  unfold normalizeKw pyStrip
  rw [dropWhile_eq_self_of_not hs, dropWhile_eq_self_of_not hrev, List.reverse_reverse]
  unfold lowerBytes
  refine map_eq_self_of ?_
  intro c hc
  have := halnum c hc
  simp only [isAlnum, Bool.or_eq_true, Bool.and_eq_true, decide_eq_true_eq] at this
  unfold lowerByte
  rw [if_neg]
  omega

theorem nodup_extract_keywords (text : Bytes) : (extract_keywords text).Nodup :=
  nodup_dictFromKeys _

theorem isSpace_lowerByte (c : Nat) : isSpace (lowerByte c) = isSpace c := by
  by_cases h : 65 ≤ c ∧ c ≤ 90
  · have h1 : isSpace (c + 32) = false := by
      simp only [isSpace, Bool.or_eq_false_iff, decide_eq_false_iff_not]
      omega
    have h2 : isSpace c = false := by
      simp only [isSpace, Bool.or_eq_false_iff, decide_eq_false_iff_not]
      omega
    simp [lowerByte, h, h1, h2]
  · simp [lowerByte, h]

theorem dropWhile_map_comm {f : Nat → Nat} {p : Nat → Bool}
    (hf : ∀ c, p (f c) = p c) (l : Bytes) :
    (l.map f).dropWhile p = (l.dropWhile p).map f := by
  induction l with
  | nil => rfl
  | cons c cs ih =>
    by_cases hc : p c = true
    · rw [List.map_cons, List.dropWhile_cons_of_pos (by rw [hf]; exact hc),
        List.dropWhile_cons_of_pos hc, ih]
    · rw [List.map_cons, List.dropWhile_cons_of_neg (by rw [hf]; exact hc),
        List.dropWhile_cons_of_neg hc, List.map_cons]

theorem pyStrip_lowerBytes (l : Bytes) :
    pyStrip (lowerBytes l) = lowerBytes (pyStrip l) := by
  unfold pyStrip lowerBytes
  rw [dropWhile_map_comm isSpace_lowerByte, ← List.map_reverse,
    dropWhile_map_comm isSpace_lowerByte, ← List.map_reverse]

theorem lowerByte_idem (c : Nat) : lowerByte (lowerByte c) = lowerByte c := by
  unfold lowerByte
  by_cases h : 65 ≤ c ∧ c ≤ 90
  · rw [if_pos h, if_neg (by omega)]
  · rw [if_neg h, if_neg h]

theorem lowerBytes_idem (l : Bytes) : lowerBytes (lowerBytes l) = lowerBytes l := by
  unfold lowerBytes
  rw [List.map_map]
  exact List.map_congr_left (fun c _ => lowerByte_idem c)

theorem dropWhile_append_of_nil {p : Nat → Bool} {l₁ : Bytes} (l₂ : Bytes)
    (h : l₁.dropWhile p = []) : (l₁ ++ l₂).dropWhile p = l₂.dropWhile p := by
  induction l₁ with
  | nil => rfl
  | cons c cs ih =>
    by_cases hc : p c = true
    · rw [List.dropWhile_cons_of_pos hc] at h
      rw [List.cons_append, List.dropWhile_cons_of_pos hc, ih h]
    · rw [List.dropWhile_cons_of_neg hc] at h
      exact absurd h (List.cons_ne_nil _ _)

theorem dropWhile_append_of_ne_nil {p : Nat → Bool} {l₁ : Bytes} (l₂ : Bytes)
    (h : l₁.dropWhile p ≠ []) :
    (l₁ ++ l₂).dropWhile p = l₁.dropWhile p ++ l₂ := by
  induction l₁ with
  | nil => exact absurd rfl h
  | cons c cs ih =>
    by_cases hc : p c = true
    · rw [List.dropWhile_cons_of_pos hc] at h
      rw [List.cons_append, List.dropWhile_cons_of_pos hc, ih h,
        List.dropWhile_cons_of_pos hc]
    · rw [List.dropWhile_cons_of_neg hc]
      rw [List.cons_append, List.dropWhile_cons_of_neg hc]

theorem length_dropWhile_le_self {p : Nat → Bool} (l : Bytes) :
    (l.dropWhile p).length ≤ l.length := by
  induction l with
  | nil => simp
  | cons c cs ih =>
    by_cases hc : p c = true
    · rw [List.dropWhile_cons_of_pos hc]
      exact Nat.le_succ_of_le ih
    · rw [List.dropWhile_cons_of_neg hc]

theorem head_not_of_dropWhile_self {p : Nat → Bool} {c : Nat} {cs : Bytes}
    (h : (c :: cs).dropWhile p = c :: cs) : p c = false := by
  by_cases hc : p c = true
  · rw [List.dropWhile_cons_of_pos hc] at h
    have := length_dropWhile_le_self (p := p) cs
    rw [h] at this
    simp at this
  · simpa using hc

/-- If a list already has no leading whitespace, trimming its tail leaves a
list that again has no leading whitespace. -/
theorem dropWhile_rev_dropWhile {p : Nat → Bool} {l : Bytes}
    (hl : l.dropWhile p = l) :
    ((l.reverse.dropWhile p).reverse).dropWhile p = (l.reverse.dropWhile p).reverse := by
  cases l with
  | nil => rfl
  | cons c cs =>
    have hc : p c = false := head_not_of_dropWhile_self hl
    have h1 : List.dropWhile p [c] = [c] := by
      rw [List.dropWhile_cons_of_neg (by simp [hc])]
    rw [List.reverse_cons]
    by_cases hnil : cs.reverse.dropWhile p = []
    · rw [dropWhile_append_of_nil [c] hnil, h1, List.reverse_singleton, h1]
    · rw [dropWhile_append_of_ne_nil [c] hnil, List.reverse_append,
        List.reverse_singleton, List.singleton_append]
      rw [List.dropWhile_cons_of_neg (by simp [hc])]

theorem pyStrip_idem (l : Bytes) : pyStrip (pyStrip l) = pyStrip l := by
  unfold pyStrip
  have ha : (l.dropWhile isSpace).dropWhile isSpace = l.dropWhile isSpace :=
    List.dropWhile_idempotent isSpace l
  have h1 := dropWhile_rev_dropWhile (p := isSpace) ha
  rw [h1, List.reverse_reverse, List.dropWhile_idempotent]

theorem normalizeKw_idem (l : Bytes) : normalizeKw (normalizeKw l) = normalizeKw l := by
  unfold normalizeKw
  rw [pyStrip_lowerBytes, lowerBytes_idem, pyStrip_idem]

theorem hkdf_derive_32_isSome (H : Bytes → Bytes → Bytes) (mk info : Bytes) :
    ∃ k, hkdf_derive H mk info 32 = some k :=
  ⟨_, rfl⟩

theorem derive_key_bundle_isSome (H : Bytes → Bytes → Bytes) {mk : Bytes}
    (h : 32 ≤ mk.length) : ∃ kb, derive_key_bundle H mk = some kb := by
  obtain ⟨a, ha⟩ := hkdf_derive_32_isSome H mk LABEL_K_FILE_ENC
  obtain ⟨b, hb⟩ := hkdf_derive_32_isSome H mk LABEL_K_SEARCH
  obtain ⟨c, hc⟩ := hkdf_derive_32_isSome H mk LABEL_K_INDEX_MAC
  refine ⟨⟨a, b, c⟩, ?_⟩
  unfold derive_key_bundle
  rw [if_neg (by omega), ha, hb, hc]

theorem ctrXor_ctrXor (ksF : Bytes → Bytes → Nat → Nat) (k n : Bytes) :
    ∀ (i : Nat) (l : Bytes), ctrXor ksF k n i (ctrXor ksF k n i l) = l := by
  intro i l
  induction l generalizing i with
  | nil => rfl
  | cons b bs ih =>
    simp only [ctrXor, Nat.xor_cancel_right]
    rw [ih (i + 1)]

theorem ctrXor_length (ksF : Bytes → Bytes → Nat → Nat) (k n : Bytes) :
    ∀ (i : Nat) (l : Bytes), (ctrXor ksF k n i l).length = l.length := by
  intro i l
  induction l generalizing i with
  | nil => rfl
  | cons b bs ih => simp [ctrXor, ih (i + 1)]

/- Index lookup lemmas. -/

theorem lookupIdx_nil (k : Bytes) : lookupIdx [] k = [] := rfl

theorem lookupIdx_cons (e : Bytes × List DocId) (rest : IndexMap) (k : Bytes) :
    lookupIdx (e :: rest) k = (if e.1 = k then e.2 else []) ++ lookupIdx rest k := by
  unfold lookupIdx
  by_cases h : e.1 = k
  · simp [List.filter_cons, h]
  · simp [List.filter_cons, h]

theorem mem_lookupIdx {ix : IndexMap} {k : Bytes} {x : DocId} :
    x ∈ lookupIdx ix k ↔ ∃ v, (k, v) ∈ ix ∧ x ∈ v := by
  induction ix with
  | nil => simp [lookupIdx_nil]
  | cons e rest ih =>
    rw [lookupIdx_cons, List.mem_append, ih]
    constructor
    · rintro (hx | ⟨v, hv, hx⟩)
      · by_cases h : e.1 = k
        · rw [if_pos h] at hx
          exact ⟨e.2, by rw [← h]; exact ⟨List.mem_cons_self _ _, hx⟩⟩
        · rw [if_neg h] at hx
          exact absurd hx (List.not_mem_nil x)
      · exact ⟨v, List.mem_cons_of_mem _ hv, hx⟩
    · rintro ⟨v, hv, hx⟩
      rcases List.mem_cons.mp hv with hv | hv
      · left
        rw [← hv]
        simp [hx]
      · exact Or.inr ⟨v, hv, hx⟩

theorem lookupIdx_setdefault_self (ix : IndexMap) (k : Bytes) (d : DocId) :
    d ∈ lookupIdx (SSEClient.setdefault_append ix k d) k := by
  induction ix with
  | nil => simp [SSEClient.setdefault_append, lookupIdx_cons, lookupIdx_nil]
  | cons e rest ih =>
    obtain ⟨k₀, v⟩ := e
    by_cases h : k₀ = k
    · simp [SSEClient.setdefault_append, h, lookupIdx_cons]
    · simp only [SSEClient.setdefault_append, if_neg h, lookupIdx_cons]
      exact List.mem_append_right _ ih

theorem lookupIdx_setdefault_mono {ix : IndexMap} {k' : Bytes} {x : DocId}
    (k : Bytes) (d : DocId) (h : x ∈ lookupIdx ix k') :
    x ∈ lookupIdx (SSEClient.setdefault_append ix k d) k' := by
  induction ix with
  | nil => simp [lookupIdx_nil] at h
  | cons e rest ih =>
    obtain ⟨k₀, v⟩ := e
    rw [lookupIdx_cons] at h
    by_cases hk : k₀ = k
    · simp only [SSEClient.setdefault_append, if_pos hk, lookupIdx_cons]
      rcases List.mem_append.mp h with hx | hx
      · refine List.mem_append_left _ ?_
        by_cases h' : k₀ = k'
        · rw [if_pos h'] at hx ⊢
          exact List.mem_append_left _ hx
        · rw [if_neg h'] at hx
          exact absurd hx (List.not_mem_nil x)
      · exact List.mem_append_right _ hx
    · simp only [SSEClient.setdefault_append, if_neg hk, lookupIdx_cons]
      rcases List.mem_append.mp h with hx | hx
      · exact List.mem_append_left _ hx
      · exact List.mem_append_right _ (ih hx)

theorem lookupIdx_json_add_self {ds : List DocId} {x : DocId} (ix : IndexMap)
    (k : Bytes) (h : x ∈ ds) : x ∈ lookupIdx (json_add ix k ds) k := by
  induction ix with
  | nil =>
    simp only [json_add, lookupIdx_cons, lookupIdx_nil, if_pos rfl, List.append_nil]
    exact mem_dictFromKeys.mpr h
  | cons e rest ih =>
    obtain ⟨k₀, v⟩ := e
    by_cases hk : k₀ = k
    · simp only [json_add, if_pos hk, lookupIdx_cons, if_pos hk]
      exact List.mem_append_left _
        (mem_dictFromKeys.mpr (List.mem_append_right _ h))
    · simp only [json_add, if_neg hk, lookupIdx_cons, if_neg hk]
      simpa using ih

theorem lookupIdx_json_add_mono {ix : IndexMap} {k' : Bytes} {x : DocId}
    (k : Bytes) (ds : List DocId) (h : x ∈ lookupIdx ix k') :
    x ∈ lookupIdx (json_add ix k ds) k' := by
  induction ix with
  | nil => simp [lookupIdx_nil] at h
  | cons e rest ih =>
    obtain ⟨k₀, v⟩ := e
    rw [lookupIdx_cons] at h
    by_cases hk : k₀ = k
    · simp only [json_add, if_pos hk, lookupIdx_cons]
      rcases List.mem_append.mp h with hx | hx
      · refine List.mem_append_left _ ?_
        by_cases h' : k₀ = k'
        · rw [if_pos h'] at hx ⊢
          exact mem_dictFromKeys.mpr (List.mem_append_left _ hx)
        · rw [if_neg h'] at hx
          exact absurd hx (List.not_mem_nil x)
      · exact List.mem_append_right _ hx
    · simp only [json_add, if_neg hk, lookupIdx_cons]
      rcases List.mem_append.mp h with hx | hx
      · exact List.mem_append_left _ hx
      · exact List.mem_append_right _ (ih hx)

theorem lookupIdx_json_add_batch_mono {ix : IndexMap} {k' : Bytes} {x : DocId}
    (batch : IndexMap) (h : x ∈ lookupIdx ix k') :
    x ∈ lookupIdx (json_add_batch ix batch) k' := by
  induction batch generalizing ix with
  | nil => exact h
  | cons e rest ih =>
    unfold json_add_batch at ih ⊢
    rw [List.foldl_cons]
    exact ih (lookupIdx_json_add_mono e.1 e.2 h)

theorem lookupIdx_json_add_batch_mem {batch : IndexMap} {k : Bytes}
    {v : List DocId} {x : DocId} (ix : IndexMap) (hv : (k, v) ∈ batch)
    (hx : x ∈ v) : x ∈ lookupIdx (json_add_batch ix batch) k := by
  induction batch generalizing ix with
  | nil => exact absurd hv (List.not_mem_nil _)
  | cons e rest ih =>
    unfold json_add_batch at ih ⊢
    rw [List.foldl_cons]
    rcases List.mem_cons.mp hv with he | he
    · rw [← he]
      exact lookupIdx_json_add_batch_mono rest (lookupIdx_json_add_self ix k hx)
    · exact ih (json_add ix e.1 e.2) he

theorem lookupIdx_dedup_index {ix : IndexMap} {k : Bytes} {x : DocId}
    (h : x ∈ lookupIdx ix k) : x ∈ lookupIdx (SSEClient.dedup_index ix) k := by
  induction ix with
  | nil => simp [lookupIdx_nil] at h
  | cons e rest ih =>
    rw [lookupIdx_cons] at h
    simp only [SSEClient.dedup_index, List.map_cons, lookupIdx_cons]
    rcases List.mem_append.mp h with hx | hx
    · refine List.mem_append_left _ ?_
      by_cases h' : e.1 = k
      · rw [if_pos h'] at hx ⊢
        exact mem_dictFromKeys.mpr hx
      · rw [if_neg h'] at hx
        exact absurd hx (List.not_mem_nil x)
    · exact List.mem_append_right _ (ih hx)

/- C7 helper lemmas: idempotence of the two backend add operations. -/

theorem dictFromKeys_absorb (v ds : List DocId) :
    dictFromKeys (dictFromKeys (v ++ ds) ++ ds) = dictFromKeys (v ++ ds) := by
  rw [dictFromKeys_append_of_subset
      (fun x hx => mem_dictFromKeys.mpr (List.mem_append_right _ hx)),
    dictFromKeys_idem]

theorem json_add_idem (ix : IndexMap) (k : Bytes) (ds : List DocId) :
    json_add (json_add ix k ds) k ds = json_add ix k ds := by
  induction ix with
  | nil =>
    simp only [json_add, if_pos rfl]
    have h := dictFromKeys_absorb [] ds
    simp only [List.nil_append] at h
    rw [h]
    simp
  | cons e rest ih =>
    obtain ⟨k₀, v⟩ := e
    by_cases hk : k₀ = k
    · simp only [json_add, if_pos hk]
      rw [dictFromKeys_absorb v ds]
    · simp only [json_add, if_neg hk]
      rw [ih]

theorem sqlite_insert_ignore_of_mem {rows : List (Bytes × DocId)} {k : Bytes}
    {d : DocId} (h : (k, d) ∈ rows) : sqlite_insert_ignore rows k d = rows := by
  simp [sqlite_insert_ignore, h]

theorem sqlite_insert_ignore_mono {rows : List (Bytes × DocId)} {p : Bytes × DocId}
    (k : Bytes) (d : DocId) (h : p ∈ rows) : p ∈ sqlite_insert_ignore rows k d := by
  unfold sqlite_insert_ignore
  split
  · exact h
  · exact List.mem_append_left _ h

theorem sqlite_insert_ignore_self (rows : List (Bytes × DocId)) (k : Bytes)
    (d : DocId) : (k, d) ∈ sqlite_insert_ignore rows k d := by
  unfold sqlite_insert_ignore
  split
  · assumption
  · exact List.mem_append_right _ (List.mem_singleton.mpr rfl)

theorem sqlite_fold_mono {rows : List (Bytes × DocId)} {p : Bytes × DocId}
    (k : Bytes) (l : List DocId) (h : p ∈ rows) :
    p ∈ l.foldl (fun r d => sqlite_insert_ignore r k d) rows := by
  induction l generalizing rows with
  | nil => exact h
  | cons d ds ih => exact ih (sqlite_insert_ignore_mono k d h)

theorem sqlite_fold_mem {k : Bytes} {l : List DocId} {d : DocId}
    (rows : List (Bytes × DocId)) (h : d ∈ l) :
    (k, d) ∈ l.foldl (fun r d => sqlite_insert_ignore r k d) rows := by
  induction l generalizing rows with
  | nil => exact absurd h (List.not_mem_nil _)
  | cons d₀ ds ih =>
    rw [List.foldl_cons]
    rcases List.mem_cons.mp h with rfl | hd
    · exact sqlite_fold_mono k ds (sqlite_insert_ignore_self rows k d)
    · exact ih _ hd

theorem sqlite_fold_of_mem {k : Bytes} {l : List DocId}
    {rows : List (Bytes × DocId)} (h : ∀ d ∈ l, (k, d) ∈ rows) :
    l.foldl (fun r d => sqlite_insert_ignore r k d) rows = rows := by
  induction l with
  | nil => rfl
  | cons d ds ih =>
    rw [List.foldl_cons, sqlite_insert_ignore_of_mem (h d (List.mem_cons_self _ _))]
    exact ih fun x hx => h x (List.mem_cons_of_mem _ hx)

theorem sqlite_add_idem (rows : List (Bytes × DocId)) (k : Bytes) (ds : List DocId) :
    sqlite_add (sqlite_add rows k ds) k ds = sqlite_add rows k ds := by
  unfold sqlite_add
  exact sqlite_fold_of_mem fun d hd => sqlite_fold_mem rows hd

/-- C7: for both the JSON and the SQLite index backend, adding the same
(token_hex, doc_ids) pair a second time leaves the backend state
unchanged: add(k, ds) twice equals a single add(k, ds). -/
theorem C7_index_add_idempotent (ix : IndexMap) (rows : List (Bytes × DocId))
    (k : Bytes) (ds : List DocId) :
    json_add (json_add ix k ds) k ds = json_add ix k ds ∧
    sqlite_add (sqlite_add rows k ds) k ds = sqlite_add rows k ds :=
  ⟨json_add_idem ix k ds, sqlite_add_idem rows k ds⟩

/- C8: vault lock invariants. -/

/-- C8: when the vault is LOCKED, get_keys yields None; lock_vault is
idempotent and is the identity on an already-locked (cleared) vault; the
zeroization step overwrites the whole buffer with zeros; and after
lock_vault both get_keys and get_k_master_for_compat yield None. -/
theorem C8_vault_lock (v : Vault) (now : Nat) (b : Bytes) :
    (v.state = VaultState.LOCKED → (VaultManager.get_keys v now).1 = none) ∧
    VaultManager.lock_vault (VaultManager.lock_vault v) = VaultManager.lock_vault v ∧
    (v.state = VaultState.LOCKED → v.keys = none → v.k_master_buf = none →
      VaultManager.lock_vault v = v) ∧
    VaultManager.secure_zero b = List.replicate b.length 0 ∧
    (VaultManager.get_keys (VaultManager.lock_vault v) now).1 = none ∧
    (VaultManager.get_k_master_for_compat (VaultManager.lock_vault v) now).1 = none := by
  refine ⟨?_, rfl, ?_, ?_, ?_, rfl⟩
  · intro h
    simp [VaultManager.get_keys, VaultManager.is_unlocked, h]
  · intro h₁ h₂ h₃
    cases v
    simp only at h₁ h₂ h₃
    simp [VaultManager.lock_vault, h₁, h₂, h₃]
  · simp [VaultManager.secure_zero]
  · simp [VaultManager.get_keys, VaultManager.is_unlocked, VaultManager.lock_vault]

/-- Witness for C8 at a concrete locked vault and buffer. -/
theorem C8_vault_lock_witness :
    (VaultManager.get_keys ⟨VaultState.LOCKED, none, none, none, 0⟩ 5).1 = none ∧
    VaultManager.secure_zero [3, 4, 5] = List.replicate 3 0 :=
  ⟨(C8_vault_lock ⟨VaultState.LOCKED, none, none, none, 0⟩ 5 [3, 4, 5]).1 rfl,
   (C8_vault_lock ⟨VaultState.LOCKED, none, none, none, 0⟩ 5 [3, 4, 5]).2.2.2.1⟩

/- C9: forward-private search on an absent counter. -/

/-- C9: whenever the (normalized) query keyword reads as 0 from the
keyword counter (in particular when it is absent, since `.get(w, 0)`
defaults to 0, and for the empty counter), search_forward_secure returns
the empty list — for every pad_to — without any error. -/
theorem C9_search_forward_secure_empty (H : Bytes → Bytes → Bytes) (mk : Bytes)
    (ctr : Bytes → Nat) (cs : ClientState) (sv : ServerState) (q : Bytes)
    (padTo : Nat) (draws : List DocId) (shuffle : List DocId → List DocId)
    (h : ctr (normalizeKw q) = 0) :
    SSEClient.search_forward_secure H mk ctr cs sv q padTo draws shuffle = some [] := by
  unfold SSEClient.search_forward_secure
  simp [h]

/-- Witness for C9: an empty counter and a non-trivial pad_to. -/
theorem C9_search_forward_secure_empty_witness :
    ((fun _ : Bytes => 0) (normalizeKw (strBytes ("delta"))) = 0) ∧
    SSEClient.search_forward_secure hmacW mkW (fun _ => 0) ⟨[("a")]⟩ svOneDoc
      (strBytes ("delta")) 7 [] id = some [] :=
  ⟨rfl, C9_search_forward_secure_empty hmacW mkW (fun _ => 0) ⟨[("a")]⟩ svOneDoc
    (strBytes ("delta")) 7 [] id rfl⟩

/- C5: delete_document. -/

theorem assocLookup_filter_ne (m : List (DocId × Bytes)) (d : DocId) :
    assocLookup (m.filter fun e => decide (e.1 ≠ d)) d = none := by
  induction m with
  | nil => rfl
  | cons e rest ih =>
    obtain ⟨k, v⟩ := e
    by_cases hk : k = d
    · simpa [List.filter_cons, hk] using ih
    · simpa [List.filter_cons, hk, assocLookup] using ih

theorem json_remove_doc_id_no_doc {ix : IndexMap} {d : DocId} :
    ∀ e ∈ json_remove_doc_id ix d, d ∉ e.2 ∧ e.2 ≠ [] := by
  intro e he
  unfold json_remove_doc_id at he
  obtain ⟨he1, he2⟩ := List.mem_filter.mp he
  simp only [decide_eq_true_eq] at he2
  refine ⟨?_, he2⟩
  obtain ⟨e₀, _, rfl⟩ := List.mem_map.mp he1
  intro hd
  have := List.mem_filter.mp hd
  simp at this

/-- Counterexample to C5 as stated: on a server state whose index holds an
entry for a doc id that is not among the stored documents (reachable by
calling upload_index alone), delete_document returns early and the index
still contains the id afterwards. -/
theorem C5_counterexample :
    (SSEServer.delete_document svOrphan ("x")).1 = false ∧
    ("x") ∈ (((SSEServer.delete_document svOrphan ("x")).2.index).map Prod.snd).flatten := by
  constructor
  · decide
  · decide

/-- C5 (amended): delete_document returns true exactly when the doc id is
among the stored documents, and whenever the doc id was stored, after
delete_document no index entry contains it, every remaining entry is
non-empty, and get_document yields not-found. -/
theorem C5_delete_document (sv : ServerState) (d : DocId) :
    ((SSEServer.delete_document sv d).1 = true ↔ d ∈ SSEServer.list_document_ids sv) ∧
    (d ∈ SSEServer.list_document_ids sv →
      (∀ e ∈ (SSEServer.delete_document sv d).2.index, d ∉ e.2 ∧ e.2 ≠ []) ∧
      SSEServer.get_document (SSEServer.delete_document sv d).2 d = none) := by
  unfold SSEServer.delete_document SSEServer.list_document_ids SSEServer.get_document
  by_cases h : d ∈ sv.documents.map Prod.fst
  · rw [if_pos h]
    refine ⟨by simp [h], fun _ => ⟨?_, ?_⟩⟩
    · exact fun e he => json_remove_doc_id_no_doc e he
    · exact assocLookup_filter_ne sv.documents d
  · rw [if_neg h]
    exact ⟨by simp [h], fun hd => absurd hd h⟩

/-- Witness for C5 on a state where the doc id is stored. -/
theorem C5_delete_document_witness :
    (SSEServer.delete_document svTwoDocs ("a")).1 = true ∧
    SSEServer.get_document (SSEServer.delete_document svTwoDocs ("a")).2 ("a") = none :=
  ⟨(C5_delete_document svTwoDocs ("a")).1.mpr (by decide),
   ((C5_delete_document svTwoDocs ("a")).2 (by decide)).2⟩

/- C2: AEAD roundtrips. -/

theorem encrypt_decrypt_file_payload {ksF : Bytes → Bytes → Nat → Nat}
    {tagF : Bytes → Bytes → Bytes → Bytes}
    (htag : ∀ k n c, (tagF k n c).length = 16) (k pt nonce : Bytes)
    (hk : k.length = 32) (hn : nonce.length = 12) :
    (encrypt_file_payload ksF tagF pt k nonce).bind
      (fun blob => decrypt_file_payload ksF tagF blob k) = some pt := by
  have hctlen : (ctrXor ksF k nonce 0 pt).length = pt.length :=
    ctrXor_length ksF k nonce 0 pt
  have htlen := htag k nonce (ctrXor ksF k nonce 0 pt)
  unfold encrypt_file_payload encrypt_file_content gcmEncrypt
  rw [if_neg (by omega)]
  simp only [Option.map_some', Option.some_bind]
  unfold decrypt_file_payload
  rw [if_neg (by simp only [List.length_append, hctlen, htlen]; omega)]
  rw [show (nonce ++ (ctrXor ksF k nonce 0 pt ++ tagF k nonce (ctrXor ksF k nonce 0 pt))).take 12
      = nonce by rw [← hn, List.take_left]]
  rw [show (nonce ++ (ctrXor ksF k nonce 0 pt ++ tagF k nonce (ctrXor ksF k nonce 0 pt))).drop 12
      = ctrXor ksF k nonce 0 pt ++ tagF k nonce (ctrXor ksF k nonce 0 pt) by
    rw [← hn, List.drop_left]]
  unfold decrypt_file_content
  rw [if_neg (by omega), if_neg (by omega),
    if_neg (by simp only [List.length_append, hctlen, htlen]; omega)]
  rw [show (ctrXor ksF k nonce 0 pt ++ tagF k nonce (ctrXor ksF k nonce 0 pt)).length - 16
      = (ctrXor ksF k nonce 0 pt).length by simp only [List.length_append, htlen]; omega]
  rw [List.take_left, List.drop_left]
  unfold gcmDecrypt
  rw [if_pos rfl, ctrXor_ctrXor]

theorem encrypt_decrypt_document {H : Bytes → Bytes → Bytes}
    {ksF : Bytes → Bytes → Nat → Nat} {tagF : Bytes → Bytes → Bytes → Bytes}
    (htag : ∀ k n c, (tagF k n c).length = 16) (mk pt iv : Bytes)
    (hmk : 32 ≤ mk.length) (hiv : iv.length = 16) :
    (encrypt_document H ksF tagF pt mk iv).bind
      (fun payload => decrypt_document H ksF tagF payload mk) = some pt := by
  obtain ⟨kb, hkb⟩ := derive_key_bundle_isSome H hmk
  have hctlen : (ctrXor ksF kb.k_enc iv 0 pt).length = pt.length :=
    ctrXor_length ksF kb.k_enc iv 0 pt
  have htlen := htag kb.k_enc iv (ctrXor ksF kb.k_enc iv 0 pt)
  unfold encrypt_document decrypt_document
  rw [hkb]
  simp only [Option.map_some', Option.some_bind]
  unfold docPayload gcmEncrypt
  rw [show (iv ++ tagF kb.k_enc iv (ctrXor ksF kb.k_enc iv 0 pt) ++ ctrXor ksF kb.k_enc iv 0 pt).take 16
      = iv by rw [List.append_assoc, ← hiv, List.take_left]]
  rw [show (iv ++ tagF kb.k_enc iv (ctrXor ksF kb.k_enc iv 0 pt) ++ ctrXor ksF kb.k_enc iv 0 pt).drop 32
      = ctrXor ksF kb.k_enc iv 0 pt by
    rw [show (32 : Nat) = (iv ++ tagF kb.k_enc iv (ctrXor ksF kb.k_enc iv 0 pt)).length by
      simp only [List.length_append, hiv, htlen]
    ]
    rw [List.drop_left]]
  rw [show (iv ++ tagF kb.k_enc iv (ctrXor ksF kb.k_enc iv 0 pt) ++ ctrXor ksF kb.k_enc iv 0 pt).drop 16
      = tagF kb.k_enc iv (ctrXor ksF kb.k_enc iv 0 pt) ++ ctrXor ksF kb.k_enc iv 0 pt by
    rw [List.append_assoc, ← hiv, List.drop_left]]
  rw [show (tagF kb.k_enc iv (ctrXor ksF kb.k_enc iv 0 pt) ++ ctrXor ksF kb.k_enc iv 0 pt).take 16
      = tagF kb.k_enc iv (ctrXor ksF kb.k_enc iv 0 pt) by rw [← htlen, List.take_left]]
  unfold gcmDecrypt
  rw [if_pos rfl, ctrXor_ctrXor]

/-- C2: for every plaintext, every valid key, and whatever nonce was drawn
during encryption, decrypting the encryption returns the plaintext — for
the decrypt_file_payload/encrypt_file_payload pair (32-byte file key,
12-byte nonce) and the decrypt_document/encrypt_document pair (master key
of at least 32 bytes, 16-byte IV).  The statement holds for every CTR
keystream and tag function of the AEAD, requiring only the GCM tag length
of 16 bytes. -/
theorem C2_roundtrip (ksF : Bytes → Bytes → Nat → Nat)
    (tagF : Bytes → Bytes → Bytes → Bytes)
    (htag : ∀ k n c, (tagF k n c).length = 16) :
    (∀ k pt nonce : Bytes, k.length = 32 → nonce.length = 12 →
      (encrypt_file_payload ksF tagF pt k nonce).bind
        (fun blob => decrypt_file_payload ksF tagF blob k) = some pt) ∧
    (∀ (H : Bytes → Bytes → Bytes) (mk pt iv : Bytes), 32 ≤ mk.length →
      iv.length = 16 →
      (encrypt_document H ksF tagF pt mk iv).bind
        (fun payload => decrypt_document H ksF tagF payload mk) = some pt) :=
  ⟨fun k pt nonce hk hn => encrypt_decrypt_file_payload htag k pt nonce hk hn,
   fun H mk pt iv hmk hiv => encrypt_decrypt_document htag mk pt iv hmk hiv⟩

/-- Witness for C2 at concrete primitives, keys, nonces and plaintexts. -/
theorem C2_roundtrip_witness :
    (encrypt_file_payload ksW tagW [1, 2, 3] (List.replicate 32 0) (List.replicate 12 5)).bind
        (fun blob => decrypt_file_payload ksW tagW blob (List.replicate 32 0)) = some [1, 2, 3] ∧
    (encrypt_document hmacW ksW tagW [4, 200] mkW (List.replicate 16 9)).bind
        (fun payload => decrypt_document hmacW ksW tagW payload mkW) = some [4, 200] :=
  ⟨(C2_roundtrip ksW tagW (fun k n c => by simp [tagW])).1 (List.replicate 32 0) [1, 2, 3]
      (List.replicate 12 5) (by simp) (by simp),
   (C2_roundtrip ksW tagW (fun k n c => by simp [tagW])).2 hmacW mkW [4, 200]
      (List.replicate 16 9) (by simp [mkW]) (by simp)⟩

/- C3: stored blob layout. -/

theorem assocLookup_assocSet_self (m : List (DocId × Bytes)) (d : DocId) (ct : Bytes) :
    assocLookup (assocSet m d ct) d = some ct := by
  induction m with
  | nil => simp [assocSet, assocLookup]
  | cons e rest ih =>
    obtain ⟨k, v⟩ := e
    by_cases hk : k = d
    · simp [assocSet, assocLookup, hk]
    · simp [assocSet, assocLookup, hk, ih]

/-- Counterexample to C3 as stated: the client engine encrypts through
`encrypt_document` (sse.py), not `encrypt_file_payload`; for a 1-byte
plaintext the blob stored on the server has length 33 = N + 32, not
N + 28 = 29. -/
theorem C3_counterexample :
    ((SSEClient.upload_documents hmacW ksW tagW mkW [(("a"), [65])]
        [List.replicate 16 1] ⟨[]⟩ ⟨[], []⟩).bind
      (fun r => SSEServer.get_document r.2.1 ("a"))).map List.length = some 33 ∧
    (33 : Nat) ≠ 1 + 28 := by
  constructor
  · rfl
  · decide

/-- C3 (amended): `encrypt_file_payload` blobs do have the external layout
nonce[12] ‖ ciphertext ‖ tag[16] with total length N + 28; but the blobs
produced and uploaded by the client engine's upload operations come from
`encrypt_document` and have the layout iv[16] ‖ tag[16] ‖ ciphertext with
total length N + 32. -/
theorem C3_blob_layout (ksF : Bytes → Bytes → Nat → Nat)
    (tagF : Bytes → Bytes → Bytes → Bytes)
    (htag : ∀ k n c, (tagF k n c).length = 16) :
    (∀ pt k nonce blob : Bytes, k.length = 32 → nonce.length = 12 →
      encrypt_file_payload ksF tagF pt k nonce = some blob →
      blob = nonce ++ ctrXor ksF k nonce 0 pt
          ++ tagF k nonce (ctrXor ksF k nonce 0 pt) ∧
      (ctrXor ksF k nonce 0 pt).length = pt.length ∧
      blob.length = pt.length + 28) ∧
    (∀ (H : Bytes → Bytes → Bytes) (mk : Bytes) (kb : KeyBundle)
        (pt iv : Bytes) (d : DocId) (cs : ClientState) (sv : ServerState)
        (r : ClientState × ServerState × IndexMap),
      derive_key_bundle H mk = some kb → iv.length = 16 →
      SSEClient.upload_documents H ksF tagF mk [(d, pt)] [iv] cs sv = some r →
      SSEServer.get_document r.2.1 d =
        some (iv ++ tagF kb.k_enc iv (ctrXor ksF kb.k_enc iv 0 pt)
            ++ ctrXor ksF kb.k_enc iv 0 pt) ∧
      (iv ++ tagF kb.k_enc iv (ctrXor ksF kb.k_enc iv 0 pt)
          ++ ctrXor ksF kb.k_enc iv 0 pt).length = pt.length + 32) := by
  constructor
  · intro pt k nonce blob hk hn henc
    have hctlen : (ctrXor ksF k nonce 0 pt).length = pt.length :=
      ctrXor_length ksF k nonce 0 pt
    have htlen := htag k nonce (ctrXor ksF k nonce 0 pt)
    unfold encrypt_file_payload encrypt_file_content gcmEncrypt at henc
    rw [if_neg (by omega)] at henc
    simp only [Option.map_some', Option.some.injEq] at henc
    subst henc
    refine ⟨by rw [List.append_assoc], hctlen, ?_⟩
    simp only [List.length_append, hctlen, htlen, hn]
    omega
  · intro H mk kb pt iv d cs sv r hkb hiv hup
    have hctlen : (ctrXor ksF kb.k_enc iv 0 pt).length = pt.length :=
      ctrXor_length ksF kb.k_enc iv 0 pt
    have htlen := htag kb.k_enc iv (ctrXor ksF kb.k_enc iv 0 pt)
    unfold SSEClient.upload_documents at hup
    rw [hkb] at hup
    simp only [Option.map_some', Option.some.injEq] at hup
    subst hup
    constructor
    · show SSEServer.get_document _ d = _
      unfold SSEClient.det_loop SSEServer.upload_index SSEServer.upload_document
        SSEServer.get_document docPayload gcmEncrypt
      simp only [List.headD_cons]
      exact assocLookup_assocSet_self sv.documents d _
    · simp only [List.length_append, hctlen, htlen, hiv]
      omega

/-- Witness for the amended C3 at concrete primitives and inputs. -/
theorem C3_blob_layout_witness :
    encrypt_file_payload ksW tagW [65] (List.replicate 32 0) (List.replicate 12 5) =
      some ((List.replicate 12 5) ++ ctrXor ksW (List.replicate 32 0) (List.replicate 12 5) 0 [65]
        ++ tagW (List.replicate 32 0) (List.replicate 12 5)
             (ctrXor ksW (List.replicate 32 0) (List.replicate 12 5) 0 [65])) ∧
    (SSEClient.upload_documents hmacW ksW tagW mkW [(("a"), [65])]
        [List.replicate 16 1] ⟨[]⟩ ⟨[], []⟩).elim False
      (fun r => SSEServer.get_document r.2.1 ("a") =
        some ((List.replicate 16 1)
          ++ tagW kbW.k_enc (List.replicate 16 1) (ctrXor ksW kbW.k_enc (List.replicate 16 1) 0 [65])
          ++ ctrXor ksW kbW.k_enc (List.replicate 16 1) 0 [65])) := by
  constructor
  · have h := ((C3_blob_layout ksW tagW (fun k n c => by simp [tagW])).1 [65]
      (List.replicate 32 0) (List.replicate 12 5) _ (by simp) (by simp) rfl).1
    rw [← h]
    rfl
  · obtain ⟨r, hr⟩ : ∃ r, SSEClient.upload_documents hmacW ksW tagW mkW [(("a"), [65])]
        [List.replicate 16 1] ⟨[]⟩ ⟨[], []⟩ = some r := ⟨_, rfl⟩
    rw [hr]
    exact ((C3_blob_layout ksW tagW (fun k n c => by simp [tagW])).2 hmacW mkW kbW [65]
      (List.replicate 16 1) ("a") ⟨[]⟩ ⟨[], []⟩ r (by rfl) (by simp) hr).1

/- C6: padded search. -/

theorem pad_with_spec {docIds : List DocId} :
    ∀ {draws res : List DocId} {n : Nat} {out : List DocId},
      SSEServer.pad_with docIds res n draws = some out →
      out.length = res.length + n ∧ (∀ x ∈ res, x ∈ out) ∧
        (∀ x ∈ out, x ∈ res ∨ x ∉ docIds) := by
  intro draws
  induction draws with
  | nil =>
    intro res n out h
    cases n with
    | zero =>
      simp only [SSEServer.pad_with, Option.some.injEq] at h
      subst h
      exact ⟨rfl, fun x hx => hx, fun x hx => Or.inl hx⟩
    | succ m => simp [SSEServer.pad_with] at h
  | cons dr drs ih =>
    intro res n out h
    cases n with
    | zero =>
      simp only [SSEServer.pad_with, Option.some.injEq] at h
      subst h
      exact ⟨rfl, fun x hx => hx, fun x hx => Or.inl hx⟩
    | succ m =>
      unfold SSEServer.pad_with at h
      split at h
      · next hfresh =>
        obtain ⟨h₁, h₂, h₃⟩ := ih h
        refine ⟨by simp only [List.length_append, List.length_singleton] at h₁; omega, ?_, ?_⟩
        · exact fun x hx => h₂ x (List.mem_append_left _ hx)
        · intro x hx
          rcases h₃ x hx with hm | hm
          · rcases List.mem_append.mp hm with hm | hm
            · exact Or.inl hm
            · rw [List.mem_singleton.mp hm]
              exact Or.inr hfresh.1
          · exact Or.inr hm
      · exact ih h

/-- C6: whenever pad_to strictly exceeds the number of real (deduped)
matches, a successful search_multi response has length pad_to, contains
every real matching doc id, and all its other entries are neither stored
document ids nor real matches — for every permutation the shuffle applies. -/
theorem C6_padded_search (sv : ServerState) (tokens : List Bytes) (padTo : Nat)
    (draws : List DocId) (shuffle : List DocId → List DocId) (out : List DocId)
    (hperm : ∀ l, List.Perm (shuffle l) l)
    (hpad : (dictFromKeys (SSEServer.raw_results tokens sv.index)).length < padTo)
    (hout : SSEServer.search_multi sv tokens padTo draws shuffle = some out) :
    out.length = padTo ∧
    (∀ x ∈ dictFromKeys (SSEServer.raw_results tokens sv.index), x ∈ out) ∧
    (∀ x ∈ out, x ∉ dictFromKeys (SSEServer.raw_results tokens sv.index) →
      x ∉ SSEServer.list_document_ids sv) := by
  unfold SSEServer.search_multi at hout
  rw [if_pos ⟨by omega, hpad⟩] at hout
  obtain ⟨out₀, hpadw, hsh⟩ := Option.map_eq_some'.mp hout
  obtain ⟨h₁, h₂, h₃⟩ := pad_with_spec hpadw
  have hp := hperm out₀
  rw [hsh] at hp
  refine ⟨?_, ?_, ?_⟩
  · rw [hp.length_eq, h₁]
    omega
  · intro x hx
    exact hp.mem_iff.mpr (h₂ x hx)
  · intro x hx hnr
    rcases h₃ x (hp.mem_iff.mp hx) with hm | hm
    · exact absurd hm hnr
    · exact hm

/-- Witness for C6: one real match, pad_to = 3, two fresh draws, identity
shuffle. -/
theorem C6_padded_search_witness :
    SSEServer.search_multi svOneDoc [[7]] 3 [("p"), ("q")] id =
      some [("a"), ("p"), ("q")] ∧
    ([("a"), ("p"), ("q")] : List DocId).length = 3 :=
  ⟨by rfl,
   (C6_padded_search svOneDoc [[7]] 3 [("p"), ("q")] id [("a"), ("p"), ("q")]
      (fun l => List.Perm.refl l) (by decide) (by rfl)).1⟩

/- C10: the known-doc-ids cache and the forward-secure path. -/

theorem add_known_mono {known : List DocId} {x : DocId} (d : DocId)
    (h : x ∈ known) : x ∈ SSEClient.add_known known d := by
  unfold SSEClient.add_known
  split
  · exact h
  · exact List.mem_append_left _ h

theorem add_known_self (known : List DocId) (d : DocId) :
    d ∈ SSEClient.add_known known d := by
  unfold SSEClient.add_known
  split
  · assumption
  · exact List.mem_append_right _ (List.mem_singleton.mpr rfl)

theorem det_loop_known_mono {H : Bytes → Bytes → Bytes}
    {ksF : Bytes → Bytes → Nat → Nat} {tagF : Bytes → Bytes → Bytes → Bytes}
    {kb : KeyBundle} :
    ∀ {docs : List (DocId × Bytes)} {ivs : List Bytes} {known : List DocId}
      {ix : IndexMap} {sv : ServerState} {x : DocId}, x ∈ known →
      x ∈ (SSEClient.det_loop H ksF tagF kb docs ivs known ix sv).1 := by
  intro docs
  induction docs with
  | nil => intro _ _ _ _ _ h; exact h
  | cons dp rest ih =>
    intro ivs known ix sv x h
    obtain ⟨d, pt⟩ := dp
    exact ih (add_known_mono d h)

theorem det_loop_known_mem {H : Bytes → Bytes → Bytes}
    {ksF : Bytes → Bytes → Nat → Nat} {tagF : Bytes → Bytes → Bytes → Bytes}
    {kb : KeyBundle} :
    ∀ {docs : List (DocId × Bytes)} {ivs : List Bytes} {known : List DocId}
      {ix : IndexMap} {sv : ServerState},
      ∀ dp ∈ docs, dp.1 ∈ (SSEClient.det_loop H ksF tagF kb docs ivs known ix sv).1 := by
  intro docs
  induction docs with
  | nil => intro _ _ _ _ dp h; exact absurd h (List.not_mem_nil _)
  | cons dp₀ rest ih =>
    intro ivs known ix sv dp h
    rcases List.mem_cons.mp h with rfl | hm
    · obtain ⟨d, pt⟩ := dp
      simp only [SSEClient.det_loop]
      exact det_loop_known_mono (add_known_self known d)
    · obtain ⟨d, pt⟩ := dp₀
      simp only [SSEClient.det_loop]
      exact ih dp hm

/-- C10: upload_documents_forward_secure leaves the known-doc-ids cache
unchanged (while upload_documents adds every uploaded id to it);
consequently, for pad_to > 0 and a non-empty cache, every id returned by
search_forward_secure lies in the cache — ids uploaded solely through the
forward-secure path are filtered out of padded results. -/
theorem C10_forward_secure_cache (H : Bytes → Bytes → Bytes)
    (ksF : Bytes → Bytes → Nat → Nat) (tagF : Bytes → Bytes → Bytes → Bytes)
    (mk : Bytes) (ctr : Bytes → Nat) (docs : List (DocId × Bytes))
    (ivs : List Bytes) (cs : ClientState) (sv : ServerState)
    (r : (Bytes → Nat) × ClientState × ServerState)
    (hr : SSEClient.upload_documents_forward_secure H ksF tagF mk ctr docs ivs cs sv = some r) :
    r.2.1 = cs ∧
    (∀ (ctr₂ : Bytes → Nat) (cs₂ : ClientState) (sv₂ : ServerState) (q : Bytes)
        (padTo : Nat) (draws : List DocId) (shuffle : List DocId → List DocId)
        (out : List DocId),
      0 < padTo → cs₂.known_doc_ids ≠ [] →
      SSEClient.search_forward_secure H mk ctr₂ cs₂ sv₂ q padTo draws shuffle = some out →
      ∀ x ∈ out, x ∈ cs₂.known_doc_ids) ∧
    (∀ (docs₂ : List (DocId × Bytes)) (ivs₂ : List Bytes) (cs₂ : ClientState)
        (sv₂ : ServerState) (r₂ : ClientState × ServerState × IndexMap),
      SSEClient.upload_documents H ksF tagF mk docs₂ ivs₂ cs₂ sv₂ = some r₂ →
      ∀ dp ∈ docs₂, dp.1 ∈ r₂.1.known_doc_ids) := by
  refine ⟨?_, ?_, ?_⟩
  · unfold SSEClient.upload_documents_forward_secure at hr
    obtain ⟨kb, hkb, hre⟩ := Option.map_eq_some'.mp hr
    rw [← hre]
  · intro ctr₂ cs₂ sv₂ q padTo draws shuffle out hpad hknown hs
    unfold SSEClient.search_forward_secure at hs
    by_cases h0 : ctr₂ (normalizeKw q) = 0
    · rw [if_pos h0] at hs
      intro x hx
      rw [← Option.some.inj hs] at hx
      exact absurd hx (List.not_mem_nil x)
    · rw [if_neg h0] at hs
      obtain ⟨tokens, htok, hs₂⟩ := Option.bind_eq_some.mp hs
      obtain ⟨raw, hraw, hout⟩ := Option.map_eq_some'.mp hs₂
      rw [if_pos ⟨hpad, hknown⟩] at hout
      intro x hx
      rw [← hout] at hx
      have := List.mem_filter.mp hx
      simpa using this.2
  · intro docs₂ ivs₂ cs₂ sv₂ r₂ hup dp hdp
    unfold SSEClient.upload_documents at hup
    obtain ⟨kb, hkb, hre⟩ := Option.map_eq_some'.mp hup
    rw [← hre]
    exact det_loop_known_mem dp hdp

/-- Witness for C10 at a concrete forward-secure upload and a concrete
padded forward-secure search. -/
theorem C10_forward_secure_cache_witness :
    (SSEClient.upload_documents_forward_secure hmacW ksW tagW mkW (fun _ => 0)
        [(("b"), strBytes ("foo"))] [[]] ⟨[("a")]⟩ ⟨[], []⟩).elim False
      (fun r => r.2.1 = (⟨[("a")]⟩ : ClientState)) ∧
    (SSEClient.upload_documents hmacW ksW tagW mkW [(("c"), strBytes ("bar"))]
        [[]] ⟨[]⟩ ⟨[], []⟩).elim False
      (fun r₂ => ("c") ∈ r₂.1.known_doc_ids) := by
  constructor
  · obtain ⟨r, hr⟩ : ∃ r, SSEClient.upload_documents_forward_secure hmacW ksW tagW mkW
        (fun _ => 0) [(("b"), strBytes ("foo"))] [[]] ⟨[("a")]⟩ ⟨[], []⟩ = some r := ⟨_, rfl⟩
    rw [hr]
    exact (C10_forward_secure_cache hmacW ksW tagW mkW (fun _ => 0)
      [(("b"), strBytes ("foo"))] [[]] ⟨[("a")]⟩ ⟨[], []⟩ r hr).1
  · obtain ⟨r₂, hr₂⟩ : ∃ r₂, SSEClient.upload_documents hmacW ksW tagW mkW
        [(("c"), strBytes ("bar"))] [[]] ⟨[]⟩ ⟨[], []⟩ = some r₂ := ⟨_, rfl⟩
    rw [hr₂]
    obtain ⟨r, hr⟩ : ∃ r, SSEClient.upload_documents_forward_secure hmacW ksW tagW mkW
        (fun _ => 0) [(("b"), strBytes ("foo"))] [[]] ⟨[("a")]⟩ ⟨[], []⟩ = some r := ⟨_, rfl⟩
    exact (C10_forward_secure_cache hmacW ksW tagW mkW (fun _ => 0)
      [(("b"), strBytes ("foo"))] [[]] ⟨[("a")]⟩ ⟨[], []⟩ r hr).2.2
      [(("c"), strBytes ("bar"))] [[]] ⟨[]⟩ ⟨[], []⟩ r₂ hr₂
      (("c"), strBytes ("bar")) (List.mem_singleton.mpr rfl)

/- C1: deterministic keyword search. -/

theorem matches_any_self (t : Bytes) : SSEServer.matches_any [t] t = true := by
  simp [SSEServer.matches_any]

theorem matches_any_single_ne {t s : Bytes} (h : t ≠ s) :
    SSEServer.matches_any [t] s = false := by
  have hb : (t == s) = false := beq_eq_false_iff_ne.mpr h
  simp [SSEServer.matches_any, hb]

theorem raw_results_mem_of {tokens : List Bytes} {k s : Bytes}
    {v : List DocId} {x : DocId} :
    ∀ {ix : IndexMap}, (k, v) ∈ ix → x ∈ v → hexDecode k = some s →
      SSEServer.matches_any tokens s = true →
      x ∈ SSEServer.raw_results tokens ix := by
  intro ix
  induction ix with
  | nil => intro he; exact absurd he (List.not_mem_nil _)
  | cons e rest ih =>
    intro he hx hdec hm
    rcases List.mem_cons.mp he with he | he
    · rw [← he]
      simp only [SSEServer.raw_results, hdec, hm, if_true]
      exact List.mem_append_left _ hx
    · cases hd₂ : hexDecode e.1 with
      | none => simpa [SSEServer.raw_results, hd₂] using ih he hx hdec hm
      | some s₂ =>
        by_cases hm₂ : SSEServer.matches_any tokens s₂ = true
        · simp only [SSEServer.raw_results, hd₂, hm₂, if_true]
          exact List.mem_append_right _ (ih he hx hdec hm)
        · simp only [SSEServer.raw_results, hd₂, hm₂, if_false]
          exact ih he hx hdec hm

theorem raw_results_sound {tokens : List Bytes} {x : DocId} :
    ∀ {ix : IndexMap}, x ∈ SSEServer.raw_results tokens ix →
      ∃ e ∈ ix, x ∈ e.2 ∧ ∃ s, hexDecode e.1 = some s ∧
        SSEServer.matches_any tokens s = true := by
  intro ix
  induction ix with
  | nil => intro h; exact absurd h (List.not_mem_nil _)
  | cons e rest ih =>
    intro h
    cases hd : hexDecode e.1 with
    | none =>
      simp only [SSEServer.raw_results, hd] at h
      obtain ⟨e₀, he₀, hrest⟩ := ih h
      exact ⟨e₀, List.mem_cons_of_mem _ he₀, hrest⟩
    | some s =>
      simp only [SSEServer.raw_results, hd] at h
      by_cases hm : SSEServer.matches_any tokens s = true
      · rw [if_pos hm] at h
        rcases List.mem_append.mp h with hx | hx
        · exact ⟨e, List.mem_cons_self _ _, hx, s, hd, hm⟩
        · obtain ⟨e₀, he₀, hrest⟩ := ih hx
          exact ⟨e₀, List.mem_cons_of_mem _ he₀, hrest⟩
      · rw [if_neg hm] at h
        obtain ⟨e₀, he₀, hrest⟩ := ih h
        exact ⟨e₀, List.mem_cons_of_mem _ he₀, hrest⟩

theorem raw_results_eq_nil {tokens : List Bytes} :
    ∀ {ix : IndexMap},
      (∀ e ∈ ix, ∀ s, hexDecode e.1 = some s →
        SSEServer.matches_any tokens s = false) →
      SSEServer.raw_results tokens ix = [] := by
  intro ix
  induction ix with
  | nil => intro _; rfl
  | cons e rest ih =>
    intro h
    cases hd : hexDecode e.1 with
    | none =>
      rw [SSEServer.raw_results, hd]
      exact ih fun e₀ he₀ s hs => h e₀ (List.mem_cons_of_mem _ he₀) s hs
    | some s =>
      have hm := h e (List.mem_cons_self _ _) s hd
      simp only [SSEServer.raw_results, hd, hm, Bool.false_eq_true, if_false]
      exact ih fun e₀ he₀ s₀ hs₀ => h e₀ (List.mem_cons_of_mem _ he₀) s₀ hs₀

theorem client_search_pad0 {H : Bytes → Bytes → Bytes} {mk : Bytes} {kb : KeyBundle}
    (hkb : derive_key_bundle H mk = some kb) (cs : ClientState) (sv : ServerState)
    (q : Bytes) (draws : List DocId) (shuffle : List DocId → List DocId) :
    SSEClient.search H mk cs sv q 0 draws shuffle =
      some (dictFromKeys (SSEServer.raw_results
        [H kb.k_search (normalizeKw (normalizeKw q))] sv.index)) := by
  unfold SSEClient.search build_trapdoor SSEServer.search SSEServer.search_multi
  rw [hkb]
  simp only [Option.map_some', Option.some_bind]
  rw [if_neg (by simp)]
  simp only [Option.map_some']
  rw [if_neg (by simp)]

theorem det_fold_mono {H : Bytes → Bytes → Bytes} {kS : Bytes} {d : DocId}
    {k' : Bytes} {x : DocId} :
    ∀ (ws : List Bytes) {ix : IndexMap}, x ∈ lookupIdx ix k' →
      x ∈ lookupIdx (ws.foldl (SSEClient.det_kw_step H kS d) ix) k' := by
  intro ws
  induction ws with
  | nil => intro _ h; exact h
  | cons w rest ih =>
    intro ix h
    rw [List.foldl_cons]
    exact ih (lookupIdx_setdefault_mono _ _ h)

theorem det_fold_mem {H : Bytes → Bytes → Bytes} {kS : Bytes} {d : DocId}
    {w : Bytes} :
    ∀ {ws : List Bytes} {ix : IndexMap}, w ∈ ws →
      d ∈ lookupIdx (ws.foldl (SSEClient.det_kw_step H kS d) ix)
        (hexEncode (H kS (normalizeKw w))) := by
  intro ws
  induction ws with
  | nil => intro _ h; exact absurd h (List.not_mem_nil _)
  | cons w₀ rest ih =>
    intro ix h
    rw [List.foldl_cons]
    rcases List.mem_cons.mp h with rfl | hm
    · exact det_fold_mono rest (lookupIdx_setdefault_self ix _ d)
    · exact ih hm

theorem det_loop_ix_mono {H : Bytes → Bytes → Bytes}
    {ksF : Bytes → Bytes → Nat → Nat} {tagF : Bytes → Bytes → Bytes → Bytes}
    {kb : KeyBundle} {k' : Bytes} {x : DocId} :
    ∀ {docs : List (DocId × Bytes)} {ivs : List Bytes} {known : List DocId}
      {ix : IndexMap} {sv : ServerState}, x ∈ lookupIdx ix k' →
      x ∈ lookupIdx (SSEClient.det_loop H ksF tagF kb docs ivs known ix sv).2.1 k' := by
  intro docs
  induction docs with
  | nil => intro _ _ _ _ h; exact h
  | cons dp rest ih =>
    intro ivs known ix sv h
    obtain ⟨d, pt⟩ := dp
    simp only [SSEClient.det_loop]
    exact ih (det_fold_mono _ h)

theorem det_loop_ix_mem {H : Bytes → Bytes → Bytes}
    {ksF : Bytes → Bytes → Nat → Nat} {tagF : Bytes → Bytes → Bytes → Bytes}
    {kb : KeyBundle} :
    ∀ {docs : List (DocId × Bytes)} {ivs : List Bytes} {known : List DocId}
      {ix : IndexMap} {sv : ServerState},
      ∀ dp ∈ docs, ∀ w ∈ extract_keywords dp.2,
        dp.1 ∈ lookupIdx (SSEClient.det_loop H ksF tagF kb docs ivs known ix sv).2.1
          (hexEncode (H kb.k_search (normalizeKw w))) := by
  intro docs
  induction docs with
  | nil => intro _ _ _ _ dp h; exact absurd h (List.not_mem_nil _)
  | cons dp₀ rest ih =>
    intro ivs known ix sv dp h w hw
    rcases List.mem_cons.mp h with rfl | hm
    · obtain ⟨d, pt⟩ := dp
      simp only [SSEClient.det_loop]
      exact det_loop_ix_mono (det_fold_mem hw)
    · obtain ⟨d, pt⟩ := dp₀
      simp only [SSEClient.det_loop]
      exact ih dp hm w hw

theorem det_loop_server_index {H : Bytes → Bytes → Bytes}
    {ksF : Bytes → Bytes → Nat → Nat} {tagF : Bytes → Bytes → Bytes → Bytes}
    {kb : KeyBundle} :
    ∀ {docs : List (DocId × Bytes)} {ivs : List Bytes} {known : List DocId}
      {ix : IndexMap} {sv : ServerState},
      (SSEClient.det_loop H ksF tagF kb docs ivs known ix sv).2.2.index = sv.index := by
  intro docs
  induction docs with
  | nil => intro _ _ _ _; rfl
  | cons dp rest ih =>
    intro ivs known ix sv
    obtain ⟨d, pt⟩ := dp
    simp only [SSEClient.det_loop]
    rw [ih]
    rfl

/- Invariants on all entries of an index map, used to characterize the
   index a fresh upload produces. -/

theorem setdefault_append_inv {P : Bytes → Prop} {Q : DocId → Prop} :
    ∀ {ix : IndexMap} {k : Bytes} {d : DocId},
      (∀ e ∈ ix, P e.1 ∧ ∀ x ∈ e.2, Q x) → P k → Q d →
      ∀ e ∈ SSEClient.setdefault_append ix k d, P e.1 ∧ ∀ x ∈ e.2, Q x := by
  intro ix
  induction ix with
  | nil =>
    intro k d _ hk hd e he
    rcases List.mem_singleton.mp he with rfl
    refine ⟨hk, ?_⟩
    intro x hx
    rw [List.mem_singleton.mp hx]
    exact hd
  | cons e₀ rest ih =>
    intro k d hix hk hd e he
    obtain ⟨k₀, v⟩ := e₀
    by_cases hkk : k₀ = k
    · rw [SSEClient.setdefault_append, if_pos hkk] at he
      rcases List.mem_cons.mp he with rfl | hm
      · refine ⟨(hix _ (List.mem_cons_self _ _)).1, ?_⟩
        intro x hx
        rcases List.mem_append.mp hx with hx | hx
        · exact (hix _ (List.mem_cons_self _ _)).2 x hx
        · rw [List.mem_singleton.mp hx]
          exact hd
      · exact hix e (List.mem_cons_of_mem _ hm)
    · rw [SSEClient.setdefault_append, if_neg hkk] at he
      rcases List.mem_cons.mp he with rfl | hm
      · exact hix _ (List.mem_cons_self _ _)
      · exact ih (fun e₁ he₁ => hix e₁ (List.mem_cons_of_mem _ he₁)) hk hd e hm

theorem det_fold_inv {H : Bytes → Bytes → Bytes} {kS : Bytes} {d : DocId}
    {P : Bytes → Prop} {Q : DocId → Prop} :
    ∀ {ws : List Bytes} {ix : IndexMap},
      (∀ e ∈ ix, P e.1 ∧ ∀ x ∈ e.2, Q x) →
      (∀ w ∈ ws, P (hexEncode (H kS (normalizeKw w)))) → Q d →
      ∀ e ∈ ws.foldl (SSEClient.det_kw_step H kS d) ix, P e.1 ∧ ∀ x ∈ e.2, Q x := by
  intro ws
  induction ws with
  | nil => intro _ hix _ _; exact hix
  | cons w rest ih =>
    intro ix hix hws hd
    rw [List.foldl_cons]
    exact ih
      (setdefault_append_inv hix (hws w (List.mem_cons_self _ _)) hd)
      (fun w₀ hw₀ => hws w₀ (List.mem_cons_of_mem _ hw₀)) hd

theorem det_loop_inv {H : Bytes → Bytes → Bytes}
    {ksF : Bytes → Bytes → Nat → Nat} {tagF : Bytes → Bytes → Bytes → Bytes}
    {kb : KeyBundle} {P : Bytes → Prop} {Q : DocId → Prop} :
    ∀ {docs : List (DocId × Bytes)} {ivs : List Bytes} {known : List DocId}
      {ix : IndexMap} {sv : ServerState},
      (∀ e ∈ ix, P e.1 ∧ ∀ x ∈ e.2, Q x) →
      (∀ dp ∈ docs, Q dp.1) →
      (∀ dp ∈ docs, ∀ w ∈ extract_keywords dp.2,
        P (hexEncode (H kb.k_search (normalizeKw w)))) →
      ∀ e ∈ (SSEClient.det_loop H ksF tagF kb docs ivs known ix sv).2.1,
        P e.1 ∧ ∀ x ∈ e.2, Q x := by
  intro docs
  induction docs with
  | nil => intro _ _ _ _ hix _ _; exact hix
  | cons dp rest ih =>
    intro ivs known ix sv hix hq hp
    obtain ⟨d, pt⟩ := dp
    simp only [SSEClient.det_loop]
    refine ih ?_ (fun dp₀ h₀ => hq dp₀ (List.mem_cons_of_mem _ h₀))
      (fun dp₀ h₀ => hp dp₀ (List.mem_cons_of_mem _ h₀))
    exact det_fold_inv hix (fun w hw => hp (d, pt) (List.mem_cons_self _ _) w hw)
      (hq (d, pt) (List.mem_cons_self _ _))

theorem dedup_index_inv {P : Bytes → Prop} {Q : DocId → Prop} {ix : IndexMap}
    (hix : ∀ e ∈ ix, P e.1 ∧ ∀ x ∈ e.2, Q x) :
    ∀ e ∈ SSEClient.dedup_index ix, P e.1 ∧ ∀ x ∈ e.2, Q x := by
  intro e he
  obtain ⟨e₀, he₀, rfl⟩ := List.mem_map.mp he
  refine ⟨(hix e₀ he₀).1, ?_⟩
  intro x hx
  exact (hix e₀ he₀).2 x (mem_dictFromKeys.mp hx)

theorem json_add_inv {P : Bytes → Prop} {Q : DocId → Prop} :
    ∀ {ix : IndexMap} {k : Bytes} {ds : List DocId},
      (∀ e ∈ ix, P e.1 ∧ ∀ x ∈ e.2, Q x) → P k → (∀ x ∈ ds, Q x) →
      ∀ e ∈ json_add ix k ds, P e.1 ∧ ∀ x ∈ e.2, Q x := by
  intro ix
  induction ix with
  | nil =>
    intro k ds _ hk hds e he
    rcases List.mem_singleton.mp he with rfl
    exact ⟨hk, fun x hx => hds x (mem_dictFromKeys.mp hx)⟩
  | cons e₀ rest ih =>
    intro k ds hix hk hds e he
    obtain ⟨k₀, v⟩ := e₀
    by_cases hkk : k₀ = k
    · rw [json_add, if_pos hkk] at he
      rcases List.mem_cons.mp he with rfl | hm
      · refine ⟨(hix _ (List.mem_cons_self _ _)).1, ?_⟩
        intro x hx
        rcases List.mem_append.mp (mem_dictFromKeys.mp hx) with hx | hx
        · exact (hix _ (List.mem_cons_self _ _)).2 x hx
        · exact hds x hx
      · exact hix e (List.mem_cons_of_mem _ hm)
    · rw [json_add, if_neg hkk] at he
      rcases List.mem_cons.mp he with rfl | hm
      · exact hix _ (List.mem_cons_self _ _)
      · exact ih (fun e₁ he₁ => hix e₁ (List.mem_cons_of_mem _ he₁)) hk hds e hm

theorem json_add_batch_inv {P : Bytes → Prop} {Q : DocId → Prop} :
    ∀ {batch ix : IndexMap},
      (∀ e ∈ ix, P e.1 ∧ ∀ x ∈ e.2, Q x) →
      (∀ e ∈ batch, P e.1 ∧ ∀ x ∈ e.2, Q x) →
      ∀ e ∈ json_add_batch ix batch, P e.1 ∧ ∀ x ∈ e.2, Q x := by
  intro batch
  induction batch with
  | nil => intro _ hix _; exact hix
  | cons e₀ rest ih =>
    intro ix hix hbatch
    unfold json_add_batch
    rw [List.foldl_cons]
    refine ih ?_ (fun e₁ he₁ => hbatch e₁ (List.mem_cons_of_mem _ he₁))
    exact json_add_inv hix (hbatch e₀ (List.mem_cons_self _ _)).1
      (hbatch e₀ (List.mem_cons_self _ _)).2

theorem nodup_all_eq_singleton {l : List DocId} {a : DocId} (hn : l.Nodup)
    (hall : ∀ x ∈ l, x = a) (hmem : a ∈ l) : l = [a] := by
  cases l with
  | nil => exact absurd hmem (List.not_mem_nil a)
  | cons x xs =>
    have hx : x = a := hall x (List.mem_cons_self _ _)
    subst hx
    cases xs with
    | nil => rfl
    | cons y ys =>
      have hy : y = x := hall y (by simp)
      exfalso
      apply (List.nodup_cons.mp hn).1
      rw [← hy]
      exact List.mem_cons_self _ _

theorem upload_search_complete {H : Bytes → Bytes → Bytes}
    {ksF : Bytes → Bytes → Nat → Nat} {tagF : Bytes → Bytes → Bytes → Bytes}
    {mk : Bytes} {kb : KeyBundle} (hkb : derive_key_bundle H mk = some kb)
    (hH : ∀ k m : Bytes, ∀ b ∈ H k m, b < 256)
    {docs : List (DocId × Bytes)} {ivs : List Bytes} {cs : ClientState}
    {sv : ServerState} {r : ClientState × ServerState × IndexMap}
    (hup : SSEClient.upload_documents H ksF tagF mk docs ivs cs sv = some r) :
    ∀ dp ∈ docs, ∀ w ∈ extract_keywords dp.2,
      dp.1 ∈ dictFromKeys (SSEServer.raw_results
        [H kb.k_search (normalizeKw w)] r.2.1.index) := by
  intro dp hdp w hw
  unfold SSEClient.upload_documents at hup
  rw [hkb] at hup
  simp only [Option.map_some', Option.some.injEq] at hup
  subst hup
  apply mem_dictFromKeys.mpr
  have h₁ := @det_loop_ix_mem H ksF tagF kb docs ivs cs.known_doc_ids [] sv dp hdp w hw
  have h₂ := lookupIdx_dedup_index h₁
  obtain ⟨v, hv, hx⟩ := mem_lookupIdx.mp h₂
  have h₃ := lookupIdx_json_add_batch_mem
    (SSEClient.det_loop H ksF tagF kb docs ivs cs.known_doc_ids [] sv).2.2.index hv hx
  obtain ⟨v₂, hv₂, hx₂⟩ := mem_lookupIdx.mp h₃
  exact raw_results_mem_of hv₂ hx₂
    (hexDecode_hexEncode fun b hb => hH _ _ b hb) (matches_any_self _)

/-- C1: on a fresh client and server, after uploading
("a", "Alpha beta gamma"), searching "beta" returns exactly ["a"],
searching the absent word "delta" returns the empty list, and — the
universal form — searching any query whose trapdoor differs from the
trapdoors of the three indexed words (which covers every word not
occurring in the uploaded document whenever HMAC is collision-free on
the words involved) returns the empty list; and in general, after any
upload batch, searching any keyword extracted from an uploaded
document's plaintext returns a list containing that doc id.  The
hypotheses ask that HMAC outputs are bytes and that the trapdoor of
"delta" differs from those of the three indexed words. -/
theorem C1_keyword_search (H : Bytes → Bytes → Bytes)
    (ksF : Bytes → Bytes → Nat → Nat) (tagF : Bytes → Bytes → Bytes → Bytes)
    (mk : Bytes) (kb : KeyBundle) (hkb : derive_key_bundle H mk = some kb)
    (hH : ∀ k m : Bytes, ∀ b ∈ H k m, b < 256)
    (hda : H kb.k_search (strBytes ("delta")) ≠ H kb.k_search (strBytes ("alpha")))
    (hdb : H kb.k_search (strBytes ("delta")) ≠ H kb.k_search (strBytes ("beta")))
    (hdg : H kb.k_search (strBytes ("delta")) ≠ H kb.k_search (strBytes ("gamma"))) :
    (∀ (ivs : List Bytes) (r : ClientState × ServerState × IndexMap)
        (draws : List DocId) (shuffle : List DocId → List DocId),
      SSEClient.upload_documents H ksF tagF mk
          [(("a"), strBytes ("Alpha beta gamma"))] ivs ⟨[]⟩ ⟨[], []⟩ = some r →
      SSEClient.search H mk r.1 r.2.1 (strBytes ("beta")) 0 draws shuffle =
        some [("a")] ∧
      SSEClient.search H mk r.1 r.2.1 (strBytes ("delta")) 0 draws shuffle =
        some [] ∧
      (∀ q : Bytes,
        H kb.k_search (normalizeKw q) ≠ H kb.k_search (strBytes ("alpha")) →
        H kb.k_search (normalizeKw q) ≠ H kb.k_search (strBytes ("beta")) →
        H kb.k_search (normalizeKw q) ≠ H kb.k_search (strBytes ("gamma")) →
        SSEClient.search H mk r.1 r.2.1 q 0 draws shuffle = some [])) ∧
    (∀ (docs : List (DocId × Bytes)) (ivs : List Bytes) (cs : ClientState)
        (sv : ServerState) (r : ClientState × ServerState × IndexMap)
        (draws : List DocId) (shuffle : List DocId → List DocId),
      SSEClient.upload_documents H ksF tagF mk docs ivs cs sv = some r →
      ∀ dp ∈ docs, ∀ w ∈ extract_keywords dp.2,
        ∃ out, SSEClient.search H mk r.1 r.2.1 w 0 draws shuffle = some out ∧
          dp.1 ∈ out) := by
  have hex_extract : extract_keywords (strBytes ("Alpha beta gamma")) =
      [strBytes ("alpha"), strBytes ("beta"), strBytes ("gamma")] := by decide
  constructor
  · intro ivs r draws shuffle hup
    have hup' := hup
    unfold SSEClient.upload_documents at hup'
    rw [hkb] at hup'
    simp only [Option.map_some', Option.some.injEq] at hup'
    have hfin : ∀ e ∈ r.2.1.index,
        (∃ w, (w = strBytes ("alpha") ∨ w = strBytes ("beta") ∨ w = strBytes ("gamma")) ∧
          e.1 = hexEncode (H kb.k_search w)) ∧ ∀ x ∈ e.2, x = ("a") := by
      subst hup'
      dsimp only [SSEServer.upload_index]
      refine json_add_batch_inv
        (P := fun key => ∃ w, (w = strBytes ("alpha") ∨ w = strBytes ("beta") ∨
          w = strBytes ("gamma")) ∧ key = hexEncode (H kb.k_search w))
        (Q := fun x => x = ("a")) ?_ ?_
      · intro e he
        rw [det_loop_server_index] at he
        exact absurd he (List.not_mem_nil e)
      · refine dedup_index_inv
          (P := fun key => ∃ w, (w = strBytes ("alpha") ∨ w = strBytes ("beta") ∨
            w = strBytes ("gamma")) ∧ key = hexEncode (H kb.k_search w))
          (Q := fun x => x = ("a")) ?_
        refine det_loop_inv
          (P := fun key => ∃ w, (w = strBytes ("alpha") ∨ w = strBytes ("beta") ∨
            w = strBytes ("gamma")) ∧ key = hexEncode (H kb.k_search w))
          (Q := fun x => x = ("a")) ?_ ?_ ?_
        · intro e he
          exact absurd he (List.not_mem_nil e)
        · intro dp hdp
          rw [List.mem_singleton.mp hdp]
        · intro dp hdp w hw
          rw [List.mem_singleton.mp hdp] at hw
          simp only at hw
          rw [hex_extract] at hw
          simp only [List.mem_cons, List.not_mem_nil, or_false] at hw
          rcases hw with rfl | rfl | rfl
          · exact ⟨strBytes ("alpha"), Or.inl rfl,
              by rw [show normalizeKw (strBytes ("alpha")) = strBytes ("alpha") from by decide]⟩
          · exact ⟨strBytes ("beta"), Or.inr (Or.inl rfl),
              by rw [show normalizeKw (strBytes ("beta")) = strBytes ("beta") from by decide]⟩
          · exact ⟨strBytes ("gamma"), Or.inr (Or.inr rfl),
              by rw [show normalizeKw (strBytes ("gamma")) = strBytes ("gamma") from by decide]⟩
    have huniv : ∀ q : Bytes,
        H kb.k_search (normalizeKw q) ≠ H kb.k_search (strBytes ("alpha")) →
        H kb.k_search (normalizeKw q) ≠ H kb.k_search (strBytes ("beta")) →
        H kb.k_search (normalizeKw q) ≠ H kb.k_search (strBytes ("gamma")) →
        SSEClient.search H mk r.1 r.2.1 q 0 draws shuffle = some [] := by
      intro q h₁ h₂ h₃
      rw [client_search_pad0 hkb, normalizeKw_idem]
      have hnil : SSEServer.raw_results
          [H kb.k_search (normalizeKw q)] r.2.1.index = [] := by
        apply raw_results_eq_nil
        intro e he s hdec
        obtain ⟨⟨w, hw, hkey⟩, _⟩ := hfin e he
        rw [hkey, hexDecode_hexEncode fun b hb => hH _ _ b hb] at hdec
        rw [← Option.some.inj hdec]
        rcases hw with rfl | rfl | rfl
        · exact matches_any_single_ne h₁
        · exact matches_any_single_ne h₂
        · exact matches_any_single_ne h₃
      rw [hnil]
      rfl
    refine ⟨?_, ?_, huniv⟩
    · rw [client_search_pad0 hkb]
      rw [show normalizeKw (normalizeKw (strBytes ("beta"))) = strBytes ("beta")
        from by decide]
      have hres : dictFromKeys (SSEServer.raw_results
          [H kb.k_search (strBytes ("beta"))] r.2.1.index) = [("a")] := by
        apply nodup_all_eq_singleton (nodup_dictFromKeys _)
        · intro x hx
          obtain ⟨e, he, hx₂, _⟩ := raw_results_sound (mem_dictFromKeys.mp hx)
          exact (hfin e he).2 x hx₂
        · have hmem := upload_search_complete hkb hH hup
            (("a"), strBytes ("Alpha beta gamma")) (List.mem_singleton.mpr rfl)
            (strBytes ("beta")) (by rw [hex_extract]; simp)
          rw [show normalizeKw (strBytes ("beta")) = strBytes ("beta")
            from by decide] at hmem
          exact hmem
      rw [hres]
    · have hnd : normalizeKw (strBytes ("delta")) = strBytes ("delta") := by decide
      exact huniv (strBytes ("delta")) (by rw [hnd]; exact hda)
        (by rw [hnd]; exact hdb) (by rw [hnd]; exact hdg)
  · intro docs ivs cs sv r draws shuffle hup dp hdp w hw
    refine ⟨_, client_search_pad0 hkb r.1 r.2.1 w draws shuffle, ?_⟩
    rw [normalizeKw_idem]
    exact upload_search_complete hkb hH hup dp hdp w hw

/-- Witness for C1 at the concrete primitives: the exact scenario of the
claim evaluates to ["a"] and [], and the universal absent-word part is
instantiated at the fresh query "omega". -/
theorem C1_keyword_search_witness :
    (SSEClient.upload_documents hmacW ksW tagW mkW
        [(("a"), strBytes ("Alpha beta gamma"))] [[]] ⟨[]⟩ ⟨[], []⟩).elim False
      (fun r =>
        SSEClient.search hmacW mkW r.1 r.2.1 (strBytes ("beta")) 0 [] id =
          some [("a")] ∧
        SSEClient.search hmacW mkW r.1 r.2.1 (strBytes ("delta")) 0 [] id =
          some [] ∧
        SSEClient.search hmacW mkW r.1 r.2.1 (strBytes ("omega")) 0 [] id =
          some []) := by
  obtain ⟨r, hr⟩ : ∃ r, SSEClient.upload_documents hmacW ksW tagW mkW
      [(("a"), strBytes ("Alpha beta gamma"))] [[]] ⟨[]⟩ ⟨[], []⟩ = some r := ⟨_, rfl⟩
  rw [hr]
  have h := (C1_keyword_search hmacW ksW tagW mkW kbW (by rfl)
    (by intro k m b hb; simp [hmacW] at hb; omega)
    (by decide) (by decide) (by decide)).1 [[]] r [] id hr
  exact ⟨h.1, h.2.1,
    h.2.2 (strBytes ("omega")) (by decide) (by decide) (by decide)⟩

/- C4: forward-secure tokens and counter discipline. -/

theorem updateCtr_self (ctr : Bytes → Nat) (w : Bytes) (n : Nat) :
    updateCtr ctr w n w = n := by
  simp [updateCtr]

theorem updateCtr_ne {w k : Bytes} (ctr : Bytes → Nat) (n : Nat) (h : w ≠ k) :
    updateCtr ctr k n w = ctr w := by
  simp [updateCtr, h]

theorem ikRaw_eq_specIK {H : Bytes → Bytes → Bytes} {kS w : Bytes} {c : Nat}
    (hnw : normalizeKw w = w) : ikRaw H kS w c = specIK H kS w c := by
  unfold ikRaw specIK fwdKeyOf
  rw [hnw]

theorem fs_fold_ctr_notmem {H : Bytes → Bytes → Bytes} {kS : Bytes} {d : DocId}
    {w : Bytes} :
    ∀ {ws : List Bytes} {ctr : Bytes → Nat} {ix : IndexMap}, w ∉ ws →
      ((ws.foldl (SSEClient.fs_kw_step H kS d) (ctr, ix)).1) w = ctr w := by
  intro ws
  induction ws with
  | nil => intro _ _ _; rfl
  | cons k₀ ks ih =>
    intro ctr ix hw
    rw [List.foldl_cons]
    have hne : w ≠ k₀ := fun h => hw (h ▸ List.mem_cons_self _ _)
    have := @ih (updateCtr ctr k₀ (ctr k₀ + 1))
      (SSEClient.setdefault_append ix (hexEncode (ikRaw H kS k₀ (ctr k₀))) d)
      (fun h => hw (List.mem_cons_of_mem _ h))
    rw [SSEClient.fs_kw_step] at *
    rw [this, updateCtr_ne ctr _ hne]

theorem fs_fold_ctr_mem {H : Bytes → Bytes → Bytes} {kS : Bytes} {d : DocId}
    {w : Bytes} :
    ∀ {ws : List Bytes} {ctr : Bytes → Nat} {ix : IndexMap}, ws.Nodup → w ∈ ws →
      ((ws.foldl (SSEClient.fs_kw_step H kS d) (ctr, ix)).1) w = ctr w + 1 := by
  intro ws
  induction ws with
  | nil => intro _ _ _ hw; exact absurd hw (List.not_mem_nil _)
  | cons k₀ ks ih =>
    intro ctr ix hn hw
    rw [List.foldl_cons, SSEClient.fs_kw_step]
    rcases List.mem_cons.mp hw with rfl | hm
    · rw [fs_fold_ctr_notmem (List.nodup_cons.mp hn).1, updateCtr_self]
    · have hne : w ≠ k₀ := fun h => (List.nodup_cons.mp hn).1 (h ▸ hm)
      rw [ih (List.nodup_cons.mp hn).2 hm, updateCtr_ne ctr _ hne]

theorem fs_fold_ix_mono {H : Bytes → Bytes → Bytes} {kS : Bytes} {d : DocId}
    {k' : Bytes} {x : DocId} :
    ∀ {ws : List Bytes} {ctr : Bytes → Nat} {ix : IndexMap},
      x ∈ lookupIdx ix k' →
      x ∈ lookupIdx ((ws.foldl (SSEClient.fs_kw_step H kS d) (ctr, ix)).2) k' := by
  intro ws
  induction ws with
  | nil => intro _ _ h; exact h
  | cons k₀ ks ih =>
    intro ctr ix h
    rw [List.foldl_cons, SSEClient.fs_kw_step]
    exact ih (lookupIdx_setdefault_mono _ _ h)

theorem fs_fold_ix_mem {H : Bytes → Bytes → Bytes} {kS : Bytes} {d : DocId}
    {w : Bytes} :
    ∀ {ws : List Bytes} {ctr : Bytes → Nat} {ix : IndexMap}, ws.Nodup → w ∈ ws →
      d ∈ lookupIdx ((ws.foldl (SSEClient.fs_kw_step H kS d) (ctr, ix)).2)
        (hexEncode (ikRaw H kS w (ctr w))) := by
  intro ws
  induction ws with
  | nil => intro _ _ _ hw; exact absurd hw (List.not_mem_nil _)
  | cons k₀ ks ih =>
    intro ctr ix hn hw
    rw [List.foldl_cons, SSEClient.fs_kw_step]
    rcases List.mem_cons.mp hw with rfl | hm
    · exact fs_fold_ix_mono (lookupIdx_setdefault_self ix _ d)
    · have hne : w ≠ k₀ := fun h => (List.nodup_cons.mp hn).1 (h ▸ hm)
      have := @ih (updateCtr ctr k₀ (ctr k₀ + 1))
        (SSEClient.setdefault_append ix (hexEncode (ikRaw H kS k₀ (ctr k₀))) d)
        (List.nodup_cons.mp hn).2 hm
      rwa [updateCtr_ne ctr _ hne] at this

theorem fs_loop_ctr {H : Bytes → Bytes → Bytes}
    {ksF : Bytes → Bytes → Nat → Nat} {tagF : Bytes → Bytes → Bytes → Bytes}
    {kb : KeyBundle} {w : Bytes} :
    ∀ {docs : List (DocId × Bytes)} {ivs : List Bytes} {ctr : Bytes → Nat}
      {ix : IndexMap} {sv : ServerState},
      (SSEClient.fs_loop H ksF tagF kb docs ivs ctr ix sv).1 w =
        ctr w + docs.countP (fun dp => decide (w ∈ extract_keywords dp.2)) := by
  intro docs
  induction docs with
  | nil => intro _ _ _ _; simp [SSEClient.fs_loop]
  | cons dp rest ih =>
    intro ivs ctr ix sv
    obtain ⟨d, pt⟩ := dp
    simp only [SSEClient.fs_loop, List.countP_cons]
    by_cases hw : w ∈ extract_keywords pt
    · rw [ih, fs_fold_ctr_mem (nodup_extract_keywords pt) hw]
      simp [hw]
      omega
    · rw [ih, fs_fold_ctr_notmem hw]
      simp [hw]

theorem fs_loop_ix_mono {H : Bytes → Bytes → Bytes}
    {ksF : Bytes → Bytes → Nat → Nat} {tagF : Bytes → Bytes → Bytes → Bytes}
    {kb : KeyBundle} {k' : Bytes} {x : DocId} :
    ∀ {docs : List (DocId × Bytes)} {ivs : List Bytes} {ctr : Bytes → Nat}
      {ix : IndexMap} {sv : ServerState}, x ∈ lookupIdx ix k' →
      x ∈ lookupIdx (SSEClient.fs_loop H ksF tagF kb docs ivs ctr ix sv).2.1 k' := by
  intro docs
  induction docs with
  | nil => intro _ _ _ _ h; exact h
  | cons dp rest ih =>
    intro ivs ctr ix sv h
    obtain ⟨d, pt⟩ := dp
    simp only [SSEClient.fs_loop]
    exact ih (fs_fold_ix_mono h)

theorem fs_loop_server_index {H : Bytes → Bytes → Bytes}
    {ksF : Bytes → Bytes → Nat → Nat} {tagF : Bytes → Bytes → Bytes → Bytes}
    {kb : KeyBundle} :
    ∀ {docs : List (DocId × Bytes)} {ivs : List Bytes} {ctr : Bytes → Nat}
      {ix : IndexMap} {sv : ServerState},
      (SSEClient.fs_loop H ksF tagF kb docs ivs ctr ix sv).2.2.index = sv.index := by
  intro docs
  induction docs with
  | nil => intro _ _ _ _; rfl
  | cons dp rest ih =>
    intro ivs ctr ix sv
    obtain ⟨d, pt⟩ := dp
    simp only [SSEClient.fs_loop]
    rw [ih]
    rfl

theorem fs_loop_ix_mem {H : Bytes → Bytes → Bytes}
    {ksF : Bytes → Bytes → Nat → Nat} {tagF : Bytes → Bytes → Bytes → Bytes}
    {kb : KeyBundle} {w : Bytes} :
    ∀ {docs : List (DocId × Bytes)} {ivs : List Bytes} {ctr : Bytes → Nat}
      {ix : IndexMap} {sv : ServerState} {j : Nat} {dp : DocId × Bytes},
      (docs.filter fun dp => decide (w ∈ extract_keywords dp.2))[j]? = some dp →
      dp.1 ∈ lookupIdx (SSEClient.fs_loop H ksF tagF kb docs ivs ctr ix sv).2.1
        (hexEncode (ikRaw H kb.k_search w (ctr w + j))) := by
  intro docs
  induction docs with
  | nil => intro _ _ _ _ j dp h; simp at h
  | cons dp₀ rest ih =>
    intro ivs ctr ix sv j dp h
    obtain ⟨d, pt⟩ := dp₀
    simp only [SSEClient.fs_loop]
    by_cases hw : w ∈ extract_keywords pt
    · rw [List.filter_cons_of_pos (by simpa using hw)] at h
      cases j with
      | zero =>
        simp only [List.getElem?_cons_zero, Option.some.injEq] at h
        rw [← h, Nat.add_zero]
        exact fs_loop_ix_mono (fs_fold_ix_mem (nodup_extract_keywords pt) hw)
      | succ j' =>
        simp only [List.getElem?_cons_succ] at h
        have hctr : ((extract_keywords pt).foldl
            (SSEClient.fs_kw_step H kb.k_search d) (ctr, ix)).1 w = ctr w + 1 :=
          fs_fold_ctr_mem (nodup_extract_keywords pt) hw
        have := @ih (ivs.drop 1)
          ((extract_keywords pt).foldl
            (SSEClient.fs_kw_step H kb.k_search d) (ctr, ix)).1
          ((extract_keywords pt).foldl
            (SSEClient.fs_kw_step H kb.k_search d) (ctr, ix)).2
          (SSEServer.upload_document sv d
            (docPayload ksF tagF kb.k_enc (ivs.headD []) pt)) j' dp h
        rw [hctr] at this
        rw [show ctr w + (j' + 1) = ctr w + 1 + j' from by omega]
        exact this
    · rw [List.filter_cons_of_neg (by simpa using hw)] at h
      have hctr : ((extract_keywords pt).foldl
          (SSEClient.fs_kw_step H kb.k_search d) (ctr, ix)).1 w = ctr w :=
        fs_fold_ctr_notmem hw
      have := @ih (ivs.drop 1)
        ((extract_keywords pt).foldl
          (SSEClient.fs_kw_step H kb.k_search d) (ctr, ix)).1
        ((extract_keywords pt).foldl
          (SSEClient.fs_kw_step H kb.k_search d) (ctr, ix)).2
        (SSEServer.upload_document sv d
          (docPayload ksF tagF kb.k_enc (ivs.headD []) pt)) j dp h
      rwa [hctr] at this

/-- C4: search_forward_secure sends exactly the token list
{IK(w,0), …, IK(w,c−1)} with IK(kw,i) = HMAC(K_fwd, kw ‖ be64(i)) and
K_fwd = HMAC(K_search, "sse.v1.forward") (the spec formula `specIK`); and
within one upload_documents_forward_secure batch the counter of every
keyword grows by exactly the number of batch documents containing it,
with the j-th such document indexed under counter value ctr(w) + j. -/
theorem C4_forward_secure_tokens (H : Bytes → Bytes → Bytes)
    (ksF : Bytes → Bytes → Nat → Nat) (tagF : Bytes → Bytes → Bytes → Bytes)
    (mk : Bytes) (kb : KeyBundle) (hkb : derive_key_bundle H mk = some kb) :
    (∀ (q : Bytes) (c : Nat),
      build_forward_secure_search_tokens H mk (normalizeKw q) c =
        some ((List.range c).map fun i => specIK H kb.k_search (normalizeKw q) i)) ∧
    (∀ (ctr : Bytes → Nat) (cs : ClientState) (sv : ServerState) (q : Bytes)
        (padTo : Nat) (draws : List DocId) (shuffle : List DocId → List DocId),
      ctr (normalizeKw q) ≠ 0 →
      SSEClient.search_forward_secure H mk ctr cs sv q padTo draws shuffle =
        (SSEServer.search_multi sv
            ((List.range (ctr (normalizeKw q))).map fun i =>
              specIK H kb.k_search (normalizeKw q) i) padTo draws shuffle).map
          fun raw =>
            if 0 < padTo ∧ cs.known_doc_ids ≠ [] then
              raw.filter fun x => decide (x ∈ cs.known_doc_ids)
            else raw) ∧
    (∀ (ctr : Bytes → Nat) (docs : List (DocId × Bytes)) (ivs : List Bytes)
        (cs : ClientState) (sv : ServerState)
        (r : (Bytes → Nat) × ClientState × ServerState),
      SSEClient.upload_documents_forward_secure H ksF tagF mk ctr docs ivs cs sv = some r →
      ∀ w : Bytes,
        r.1 w = ctr w + docs.countP (fun dp => decide (w ∈ extract_keywords dp.2)) ∧
        ∀ (j : Nat) (dp : DocId × Bytes),
          (docs.filter fun dp => decide (w ∈ extract_keywords dp.2))[j]? = some dp →
          dp.1 ∈ lookupIdx r.2.2.index
            (hexEncode (specIK H kb.k_search w (ctr w + j)))) := by
  have htok : ∀ (q : Bytes) (c : Nat),
      build_forward_secure_search_tokens H mk (normalizeKw q) c =
        some ((List.range c).map fun i => specIK H kb.k_search (normalizeKw q) i) := by
    intro q c
    unfold build_forward_secure_search_tokens
    rw [hkb]
    simp only [Option.map_some', Option.some.injEq]
    exact List.map_congr_left fun i _ => ikRaw_eq_specIK (normalizeKw_idem q)
  refine ⟨htok, ?_, ?_⟩
  · intro ctr cs sv q padTo draws shuffle h0
    unfold SSEClient.search_forward_secure
    rw [if_neg h0, htok q (ctr (normalizeKw q))]
    rfl
  · intro ctr docs ivs cs sv r hr w
    unfold SSEClient.upload_documents_forward_secure at hr
    rw [hkb] at hr
    simp only [Option.map_some', Option.some.injEq] at hr
    subst hr
    refine ⟨fs_loop_ctr, ?_⟩
    intro j dp hget
    have hmem : dp ∈ docs.filter fun dp => decide (w ∈ extract_keywords dp.2) := by
      have hlt : j < (docs.filter fun dp => decide (w ∈ extract_keywords dp.2)).length := by
        by_contra hge
        rw [List.getElem?_eq_none (by omega)] at hget
        exact Option.noConfusion hget
      have := List.getElem?_eq_getElem hlt
      rw [this] at hget
      rw [← Option.some.inj hget]
      exact List.getElem_mem hlt
    have hw : w ∈ extract_keywords dp.2 := by
      have := List.of_mem_filter hmem
      simpa using this
    have hnw : normalizeKw w = w := normalizeKw_extract hw
    have h₁ := @fs_loop_ix_mem H ksF tagF kb w docs ivs ctr [] sv j dp hget
    have h₂ := lookupIdx_dedup_index h₁
    obtain ⟨v, hv, hx⟩ := mem_lookupIdx.mp h₂
    have h₃ := lookupIdx_json_add_batch_mem
      (SSEClient.fs_loop H ksF tagF kb docs ivs ctr [] sv).2.2.index hv hx
    rw [ikRaw_eq_specIK hnw] at h₃
    obtain ⟨v₂, hv₂, hx₂⟩ := mem_lookupIdx.mp h₃
    exact mem_lookupIdx.mpr ⟨v₂, hv₂, hx₂⟩

/-- Witness for C4: a two-document batch sharing the keyword "foo"; the
counter ends at 2 and each conclusion of the theorem is instantiated. -/
theorem C4_forward_secure_tokens_witness :
    build_forward_secure_search_tokens hmacW mkW (normalizeKw (strBytes ("foo"))) 2 =
      some ((List.range 2).map fun i =>
        specIK hmacW kbW.k_search (normalizeKw (strBytes ("foo"))) i) ∧
    (SSEClient.upload_documents_forward_secure hmacW ksW tagW mkW (fun _ => 0)
        [(("a"), strBytes ("foo")), (("b"), strBytes ("foo bar"))] [[], []]
        ⟨[]⟩ ⟨[], []⟩).elim False
      (fun r => r.1 (strBytes ("foo")) = 0 + 2) := by
  constructor
  · exact (C4_forward_secure_tokens hmacW ksW tagW mkW kbW (by rfl)).1
      (strBytes ("foo")) 2
  · obtain ⟨r, hr⟩ : ∃ r, SSEClient.upload_documents_forward_secure hmacW ksW tagW mkW
        (fun _ => 0) [(("a"), strBytes ("foo")), (("b"), strBytes ("foo bar"))]
        [[], []] ⟨[]⟩ ⟨[], []⟩ = some r := ⟨_, rfl⟩
    rw [hr]
    have h := ((C4_forward_secure_tokens hmacW ksW tagW mkW kbW (by rfl)).2.2
      (fun _ => 0) [(("a"), strBytes ("foo")), (("b"), strBytes ("foo bar"))]
      [[], []] ⟨[]⟩ ⟨[], []⟩ r hr (strBytes ("foo"))).1
    show r.1 (strBytes ("foo")) = 0 + 2
    rw [h]
    decide
